import Mathlib

set_option maxHeartbeats 1000000

/-!
Verification development for the rss2bsky feed engine: a shallow embedding of
the phrase truncator and rich-text segmenter from rss2bsky.py and of the
transport fetcher and category normalizer from fastfeedparser_ext.py, with
theorems settling the stated properties.  Strings are modelled as lists of
characters; the Python regex whitespace and word classes are modelled on the
ASCII range, which is the range every property below exercises.
-/

namespace R2B

/-- Whitespace test modelling the Python regex whitespace class on ASCII input
(space, tab, newline, carriage return, vertical tab, form feed). -/
def isSpaceB (c : Char) : Bool :=
  c = ' ' || c = '\t' || c = '\n' || c = '\r' || c = '\x0b' || c = '\x0c'

/-- Sentence terminator characters used by trim_link_description. -/
def isTermCh (c : Char) : Bool :=
  c = '.' || c = '!' || c = '?'

/-- Python str.lstrip with no argument. -/
def lstrip (l : List Char) : List Char := l.dropWhile isSpaceB

/-- Python str.rstrip with no argument. -/
def rstrip (l : List Char) : List Char := (l.reverse.dropWhile isSpaceB).reverse

/-- Python str.strip with no argument. -/
def strip (l : List Char) : List Char := rstrip (lstrip l)

/-- Models re.sub with a whitespace-run pattern and a single-space replacement:
every maximal whitespace run becomes one space character. -/
def collapseWs : List Char → List Char
  | [] => []
  | [c] => if isSpaceB c then [' '] else [c]
  | c :: d :: rest =>
    if isSpaceB c then
      if isSpaceB d then collapseWs (d :: rest) else ' ' :: collapseWs (d :: rest)
    else c :: collapseWs (d :: rest)

/-- Python string join with a single space separator. -/
def joinSp : List (List Char) → List Char
  | [] => []
  | [p] => p
  | p :: q :: rest => p ++ ' ' :: joinSp (q :: rest)

/-- One left-to-right pass of re.finditer with the phrase pattern of
trim_link_description: a maximal run of non-terminator characters followed by
an optional single terminator.  The state holds the start position and the
characters accumulated for the match in progress. -/
def phraseScanAux : List Char → Nat → Option (Nat × List Char) → List (Nat × List Char)
  | [], _, none => []
  | [], _, some sm => [sm]
  | c :: rest, pos, none =>
    if isTermCh c then phraseScanAux rest (pos + 1) none
    else phraseScanAux rest (pos + 1) (some (pos, [c]))
  | c :: rest, pos, some sm =>
    if isTermCh c then (sm.1, sm.2 ++ [c]) :: phraseScanAux rest (pos + 1) none
    else phraseScanAux rest (pos + 1) (some (sm.1, sm.2 ++ [c]))

/-- All matches of the phrase pattern, with their start offsets. -/
def findPhraseMatches (l : List Char) : List (Nat × List Char) :=
  phraseScanAux l 0 none

/-- The phrase list of trim_link_description: each match is stripped and kept
when non-empty, paired with the start offset of the match. -/
def phrasesOf (normalized : List Char) : List (Nat × List Char) :=
  (findPhraseMatches normalized).filterMap
    (fun sm => if strip sm.2 = [] then none else some (sm.1, strip sm.2))

/-- Phrases whose start offset is at most the phrase start limit. -/
def selectedPhrases (phrases : List (Nat × List Char)) (phrase_start_limit : Nat) :
    List (List Char) :=
  (phrases.filter (fun st => decide (st.1 ≤ phrase_start_limit))).map (fun st => st.2)

/-- The while loop of trim_link_description: while more than one phrase remains
and the joined text exceeds the total limit, drop the last phrase.  The fuel is
the length of the selected list, which bounds the number of iterations. -/
def dropLoopFuel : Nat → List (List Char) → Nat → List Char
  | 0, selected, _ => strip (joinSp selected)
  | fuel + 1, selected, total_limit =>
    let combined := strip (joinSp selected)
    if 1 < selected.length ∧ total_limit < combined.length then
      dropLoopFuel fuel selected.dropLast total_limit
    else combined

/-- Entry point of the while loop with enough fuel for every iteration. -/
def dropLoop (selected : List (List Char)) (total_limit : Nat) : List Char :=
  dropLoopFuel selected.length selected total_limit

/-- trim_link_description from rss2bsky.py on a character-list string with
non-negative limits. -/
def trim_link_description (text : List Char) (phrase_start_limit total_limit : Nat) :
    List Char :=
  if text = [] then text
  else
    let normalized := strip (collapseWs text)
    if normalized = [] then normalized
    else
      let phrases := phrasesOf normalized
      if phrases = [] then rstrip (normalized.take phrase_start_limit)
      else
        let selected := selectedPhrases phrases phrase_start_limit
        if selected = [] then rstrip (normalized.take phrase_start_limit)
        else dropLoop selected total_limit

/-- A typed text fragment emitted by make_rich through the text builder. -/
inductive Span
  | text (s : List Char)
  | link (display target : List Char)
  | tag (display name : List Char)
deriving DecidableEq, Repr

/-- The characters a span renders in the final post text. -/
def spanDisplay : Span → List Char
  | Span.text s => s
  | Span.link d _ => d
  | Span.tag d _ => d

/-- Concatenation of the rendered text of a span sequence. -/
def displayConcat (spans : List Span) : List Char :=
  (spans.map spanDisplay).flatten

/-- Python str.split on the newline character. -/
def splitNl : List Char → List (List Char)
  | [] => [[]]
  | c :: rest =>
    if c = '\n' then [] :: splitNl rest
    else
      match splitNl rest with
      | [] => [[c]]
      | h :: t => (c :: h) :: t

def schemeHttps : List Char := "https://".toList

def schemeHttp : List Char := "http://".toList

/-- Attempt to match one URL scheme literally at the head of the input,
followed by a maximal non-empty run of non-whitespace characters. -/
def matchUrlScheme (scheme l : List Char) : Option (List Char) :=
  if l.take scheme.length = scheme then
    let body := (l.drop scheme.length).takeWhile (fun c => !(isSpaceB c))
    if body = [] then none else some (scheme ++ body)
  else none

/-- Match of the URL pattern of make_rich at the head of the input. -/
def matchUrlAt (l : List Char) : Option (List Char) :=
  match matchUrlScheme schemeHttps l with
  | some m => some m
  | none => matchUrlScheme schemeHttp l

/-- Leftmost match of a matcher over a string, in the manner of re.finditer
taking its first match: returns the text before the match, the match, and the
text after the match. -/
def findFirstBy (matchAt : List Char → Option (List Char)) :
    List Char → Option (List Char × List Char × List Char)
  | [] => none
  | c :: rest =>
    match matchAt (c :: rest) with
    | some m => some ([], m, (c :: rest).drop m.length)
    | none =>
      match findFirstBy matchAt rest with
      | some (b, m, a) => some (c :: b, m, a)
      | none => none

/-- Leftmost URL match of a line. -/
def findFirstUrl (l : List Char) : Option (List Char × List Char × List Char) :=
  findFirstBy matchUrlAt l

/-- The hashtag body class of make_rich: the regex uses a word character that
is not an underscore, which on the ASCII range is a letter or a digit. -/
def isHashBodyChar (c : Char) : Bool := c.isAlphanum

/-- Match of the hashtag pattern at the head of the input: a hash sign
followed by a non-empty maximal run of hashtag body characters. -/
def matchTagAt : List Char → Option (List Char)
  | [] => none
  | c :: rest =>
    if c = '#' then
      let body := rest.takeWhile isHashBodyChar
      if body = [] then none else some ('#' :: body)
    else none

/-- Leftmost hashtag match: text before, match, text after. -/
def findFirstTag (l : List Char) : Option (List Char × List Char × List Char) :=
  findFirstBy matchTagAt l

/-- re.split with the capturing hashtag pattern: the segments between matches
(possibly empty) interleaved with the matches themselves, in order. -/
def tagSplitFuel : Nat → List Char → List (List Char)
  | 0, l => [l]
  | fuel + 1, l =>
    match findFirstTag l with
    | none => [l]
    | some (b, m, a) => b :: m :: tagSplitFuel fuel a

/-- re.split with the capturing hashtag pattern, with enough fuel. -/
def tagSplit (l : List Char) : List (List Char) := tagSplitFuel l.length l

/-- The builder call make_rich performs for one split piece: a piece starting
with a hash sign becomes a tag span whose name is the piece without the hash
sign, stripped; every other piece becomes a plain text span. -/
def pieceSpan (t : List Char) : Span :=
  if t.head? = some '#' then Span.tag t (strip (t.drop 1)) else Span.text t

/-- Spans emitted for one non-URL segment of a line. -/
def emitTagSplit (s : List Char) : List Span := (tagSplit s).map pieceSpan

/-- Spans emitted for one line: URL matches become link spans, the segment
before each match and the tail after the last match are split on hashtags when
non-empty. -/
def lineSpansFuel : Nat → List Char → List Span
  | 0, l => if l = [] then [] else emitTagSplit l
  | fuel + 1, l =>
    match findFirstUrl l with
    | none => if l = [] then [] else emitTagSplit l
    | some (b, m, a) =>
      (if b = [] then [] else emitTagSplit b) ++ (Span.link m m :: lineSpansFuel fuel a)

/-- Spans emitted for one line, with enough fuel. -/
def lineSpans (l : List Char) : List Span := lineSpansFuel l.length l

/-- make_rich from rss2bsky.py: the input is split on newlines, each line is
segmented, and a newline text span is appended after every line including the
last one. -/
def make_rich (content : List Char) : List Span :=
  ((splitNl content).map (fun line => lineSpans line ++ [Span.text ['\n']])).flatten

/-- Outcome of one HTTP attempt inside the transport fetcher, named after the
exception branch it triggers in the Python code (or success). -/
inductive Outcome
  | success (body : List Char)
  | httpError (code : Nat) (reason : List Char)
  | timeoutErr
  | urlError (reason : List Char)
deriving DecidableEq, Repr

/-- The retryable status test of _fetch_url: 429 or any 5xx code. -/
def retryableStatus (code : Nat) : Bool :=
  code == 429 || (decide (500 ≤ code) && decide (code ≤ 599))

/-- An attempt outcome the fetch loop retries after: a retryable HTTP status,
a timeout, or a connection-level URL error. -/
def retryableFailureB : Outcome → Bool
  | Outcome.success _ => false
  | Outcome.httpError c _ => retryableStatus c
  | Outcome.timeoutErr => true
  | Outcome.urlError _ => true

/-- Result of _fetch_url: the body on success, or one of the three error
shapes the function raises. -/
inductive FetchResult
  | ok (body : List Char)
  | httpStatusError (code : Nat) (reason : List Char)
  | timeoutExceeded (retries : Int) (cause : Outcome)
  | connectionFailed (retries : Int) (cause : Option Outcome)
deriving DecidableEq, Repr

/-- The out-of-retries tail of _fetch_url: a timeout error when the last
failure was a timeout, otherwise a connection error; both carry the retries
parameter and chain the last exception. -/
def outOfRetries (retries : Int) (lastExc : Option Outcome) : FetchResult :=
  match lastExc with
  | some Outcome.timeoutErr => FetchResult.timeoutExceeded retries Outcome.timeoutErr
  | other => FetchResult.connectionFailed retries other

/-- The attempt loop of _fetch_url.  The oracle gives the outcome of each
attempt (index 0 is the first attempt); the fuel is the number of attempts
still allowed; used counts attempts already made.  Returns the number of
attempts performed and the result. -/
def fetchLoop (oracle : Nat → Outcome) (retries : Int) :
    Nat → Nat → Option Outcome → Nat × FetchResult
  | 0, used, lastExc => (used, outOfRetries retries lastExc)
  | k + 1, used, lastExc =>
    match oracle used with
    | Outcome.success b => (used + 1, FetchResult.ok b)
    | Outcome.httpError c r =>
      if retryableStatus c then
        fetchLoop oracle retries k (used + 1) (some (Outcome.httpError c r))
      else (used + 1, FetchResult.httpStatusError c r)
    | Outcome.timeoutErr => fetchLoop oracle retries k (used + 1) (some Outcome.timeoutErr)
    | Outcome.urlError r => fetchLoop oracle retries k (used + 1) (some (Outcome.urlError r))

/-- Number of loop iterations of _fetch_url: the range runs from 1 to the
maximum of 1 and retries, inclusive. -/
def maxAttempts (retries : Int) : Nat := (max 1 retries).toNat

/-- _fetch_url from fastfeedparser_ext.py, abstracted over an oracle of
attempt outcomes.  Sleeping between attempts does not affect the result and
is not modelled. -/
def fetch_url (oracle : Nat → Outcome) (retries : Int) : Nat × FetchResult :=
  fetchLoop oracle retries (maxAttempts retries) 0 none

/-- An XML child element of a feed item, with the parts _collect_categories
reads: tag name, attributes, and text content. -/
structure XmlNode where
  tag : List Char
  attrs : List (List Char × List Char)
  text : Option (List Char)
deriving DecidableEq, Repr

/-- A feed item element, with the direct children _collect_categories scans. -/
structure XmlItem where
  children : List XmlNode
deriving DecidableEq, Repr

/-- Feed formats recognized by parse. -/
inductive FeedType
  | rss
  | atom
  | rdf
deriving DecidableEq, Repr

/-- Element.findall with a plain tag path: the direct children with that tag. -/
def findall (item : XmlItem) (t : List Char) : List XmlNode :=
  item.children.filter (fun c => decide (c.tag = t))

/-- Element.get: attribute lookup returning an optional string. -/
def getAttr (n : XmlNode) (k : List Char) : Option (List Char) :=
  (n.attrs.find? (fun p => decide (p.1 = k))).map (fun p => p.2)

/-- Python truthiness of an optional string: false for absent and for the
empty string. -/
def pyTruthyOpt : Option (List Char) → Bool
  | none => false
  | some s => !s.isEmpty

/-- The Python or operator on optional strings: the first operand when it is
truthy, otherwise the second operand verbatim. -/
def pyOrOpt (a b : Option (List Char)) : Option (List Char) :=
  if pyTruthyOpt a then a else b

def tagCategory : List Char := "category".toList

def tagDCSubject : List Char := "\x7bhttp://purl.org/dc/elements/1.1/\x7dsubject".toList

def tagAtomCategory : List Char := "\x7bhttp://www.w3.org/2005/Atom\x7dcategory".toList

def keyTerm : List Char := "term".toList

def keyLabel : List Char := "label".toList

/-- The rss and rdf branch of _collect_categories for one element: when the
text is truthy, its stripped value is kept when non-empty. -/
def rssCatValue (c : XmlNode) : Option (List Char) :=
  match c.text with
  | some t => if t = [] then none else (if strip t = [] then none else some (strip t))
  | none => none

/-- The atom branch of _collect_categories for one element: the term attribute
or-else the label attribute; when that is falsy and the text is truthy, the
stripped text instead; a truthy result is appended stripped. -/
def atomCatValue (c : XmlNode) : Option (List Char) :=
  let term0 := pyOrOpt (getAttr c keyTerm) (getAttr c keyLabel)
  let term1 :=
    if !pyTruthyOpt term0 && pyTruthyOpt c.text then
      (c.text.map strip)
    else term0
  match term1 with
  | some v => if v = [] then none else some (strip v)
  | none => none

/-- The raw category list _collect_categories builds before deduplication. -/
def collect_raw (item : XmlItem) (ft : FeedType) : List (List Char) :=
  match ft with
  | FeedType.rss | FeedType.rdf =>
    (findall item tagCategory).filterMap rssCatValue ++
      (findall item tagDCSubject).filterMap rssCatValue
  | FeedType.atom => (findall item tagAtomCategory).filterMap atomCatValue

/-- The deduplication pass of _collect_categories: keep the first occurrence
of every value, in order; seen accumulates the values kept so far. -/
def dedupeAux (seen : List (List Char)) : List (List Char) → List (List Char)
  | [] => []
  | v :: rest => if v ∈ seen then dedupeAux seen rest else v :: dedupeAux (v :: seen) rest

/-- Order-preserving deduplication of the collected category values. -/
def dedupe (l : List (List Char)) : List (List Char) := dedupeAux [] l

/-- _collect_categories from fastfeedparser_ext.py. -/
def collect_categories (item : XmlItem) (ft : FeedType) : List (List Char) :=
  dedupe (collect_raw item ft)

/-- A tag record of an entry: a single term field. -/
structure FFTag where
  term : List Char
deriving DecidableEq, Repr

/-- The category fields of a normalized entry. -/
structure FeedEntryCats where
  category : List Char
  tags : List FFTag
deriving DecidableEq, Repr

/-- Modelled from the spec: the category fields an entry carries when the
external feed-entry parser collaborator provides them and parse collects no
category.  The source delegates these fields to _parse_feed_entry, which is
not part of this repository; the data model of the spec fixes the explicit
empty convention of an empty string category and an empty tag list. -/
def baseEntry : FeedEntryCats := { category := [], tags := [] }

/-- The category overlay of parse: when the collected list is non-empty, the
category becomes its first value and the tags one record per value, in order;
otherwise the entry keeps the collaborator fields. -/
def normalizeEntryCats (item : XmlItem) (ft : FeedType) : FeedEntryCats :=
  match collect_categories item ft with
  | [] => baseEntry
  | c :: rest => { category := c, tags := (c :: rest).map FFTag.mk }

/-- Index of the first occurrence of a value in a list (length when absent). -/
def firstIdx (l : List (List Char)) (x : List Char) : Nat :=
  match l with
  | [] => 0
  | y :: rest => if y = x then 0 else firstIdx rest x + 1

/-- Follows the spec wording as amended for the atom candidate: a non-empty
term attribute is preferred as-is and trimmed only on acceptance, otherwise a
non-empty label attribute likewise, otherwise the element text when its
trimmed form is non-empty; so a whitespace-only term attribute yields the
empty string rather than being discarded. -/
def atomCatValueSpec (c : XmlNode) : Option (List Char) :=
  if pyTruthyOpt (getAttr c keyTerm) then (getAttr c keyTerm).map strip
  else if pyTruthyOpt (getAttr c keyLabel) then (getAttr c keyLabel).map strip
  else
    match c.text with
    | some t => if strip t = [] then none else some (strip t)
    | none => none

/-- A sentence in mid position for the sentence-normal form: non-empty, its
first character neither a terminator nor whitespace, its last character a
terminator and not whitespace, and no terminator before the last character. -/
def midSentence (q : List Char) : Bool :=
  !q.isEmpty && !isTermCh (q.headD ' ') && !isSpaceB (q.headD ' ') &&
    !isSpaceB (q.getLastD ' ') && q.dropLast.all (fun c => !isTermCh c) &&
    isTermCh (q.getLastD ' ')

/-- A sentence in final position: as a mid sentence but the trailing
terminator is optional. -/
def lastSentence (q : List Char) : Bool :=
  !q.isEmpty && !isTermCh (q.headD ' ') && !isSpaceB (q.headD ' ') &&
    !isSpaceB (q.getLastD ' ') && q.dropLast.all (fun c => !isTermCh c)

/-- Sentence-normal form of a sentence list: every sentence but the last is a
mid sentence, the last is a final sentence. -/
def goodSentences : List (List Char) → Bool
  | [] => true
  | [q] => lastSentence q
  | q :: rest => midSentence q && goodSentences rest

/-- Tail of matchSpec: each later sentence matched together with the single
separating space before it. -/
def matchSpecTail : List (List Char) → Nat → List (Nat × List Char)
  | [], _ => []
  | q :: rest, pos => (pos, ' ' :: q) :: matchSpecTail rest (pos + 1 + q.length)

/-- The match list the phrase scanner produces on a sentence-normal text: the
first sentence matched as-is, every later sentence matched with its leading
space. -/
def matchSpec : List (List Char) → Nat → List (Nat × List Char)
  | [], _ => []
  | q :: rest, pos => (pos, q) :: matchSpecTail rest (pos + q.length)

/-- Tail of phraseSpec: the later sentences with the match start offsets. -/
def phraseSpecTail : List (List Char) → Nat → List (Nat × List Char)
  | [], _ => []
  | q :: rest, pos => (pos, q) :: phraseSpecTail rest (pos + 1 + q.length)

/-- The phrase list on a sentence-normal text: the sentences with the match
start offsets. -/
def phraseSpec : List (List Char) → Nat → List (Nat × List Char)
  | [], _ => []
  | q :: rest, pos => (pos, q) :: phraseSpecTail rest (pos + q.length)

/-- A maximal hashtag token of the amended segmenter claim, given by its
decomposition: the scanned text is what precedes it, then a hash sign, a
non-empty body of word characters other than underscore, and a remainder not
starting with such a character. -/
def isMaxHashTokenSplit (b body a : List Char) : Prop :=
  body ≠ [] ∧ body.all isHashBodyChar = true ∧
    (∀ c, a.head? = some c → isHashBodyChar c = false)

/-! ## Transport fetcher lemmas -/

theorem fetchLoop_zero (oracle : Nat → Outcome) (retries : Int) (used : Nat)
    (lastExc : Option Outcome) :
    fetchLoop oracle retries 0 used lastExc = (used, outOfRetries retries lastExc) := rfl

theorem fetchLoop_step_success (oracle : Nat → Outcome) (retries : Int) (k used : Nat)
    (lastExc : Option Outcome) (b : List Char) (h : oracle used = Outcome.success b) :
    fetchLoop oracle retries (k + 1) used lastExc = (used + 1, FetchResult.ok b) := by
  rw [fetchLoop, h]

theorem fetchLoop_step_http_retry (oracle : Nat → Outcome) (retries : Int) (k used : Nat)
    (lastExc : Option Outcome) (c : Nat) (r : List Char)
    (h : oracle used = Outcome.httpError c r) (hr : retryableStatus c = true) :
    fetchLoop oracle retries (k + 1) used lastExc =
      fetchLoop oracle retries k (used + 1) (some (Outcome.httpError c r)) := by
  rw [fetchLoop, h]
  show (if retryableStatus c = true then
      fetchLoop oracle retries k (used + 1) (some (Outcome.httpError c r))
    else (used + 1, FetchResult.httpStatusError c r)) = _
  rw [hr]
  rfl

theorem fetchLoop_step_http_fatal (oracle : Nat → Outcome) (retries : Int) (k used : Nat)
    (lastExc : Option Outcome) (c : Nat) (r : List Char)
    (h : oracle used = Outcome.httpError c r) (hr : retryableStatus c = false) :
    fetchLoop oracle retries (k + 1) used lastExc =
      (used + 1, FetchResult.httpStatusError c r) := by
  rw [fetchLoop, h]
  show (if retryableStatus c = true then
      fetchLoop oracle retries k (used + 1) (some (Outcome.httpError c r))
    else (used + 1, FetchResult.httpStatusError c r)) = _
  rw [hr]
  rfl

theorem fetchLoop_step_timeout (oracle : Nat → Outcome) (retries : Int) (k used : Nat)
    (lastExc : Option Outcome) (h : oracle used = Outcome.timeoutErr) :
    fetchLoop oracle retries (k + 1) used lastExc =
      fetchLoop oracle retries k (used + 1) (some Outcome.timeoutErr) := by
  rw [fetchLoop, h]

theorem fetchLoop_step_url (oracle : Nat → Outcome) (retries : Int) (k used : Nat)
    (lastExc : Option Outcome) (r : List Char) (h : oracle used = Outcome.urlError r) :
    fetchLoop oracle retries (k + 1) used lastExc =
      fetchLoop oracle retries k (used + 1) (some (Outcome.urlError r)) := by
  rw [fetchLoop, h]

theorem fetchLoop_nonretryable (oracle : Nat → Outcome) (retries : Int) (c : Nat)
    (r : List Char) :
    ∀ n k used lastExc, (∀ j, j < n → retryableFailureB (oracle (used + j)) = true) →
      n < k → oracle (used + n) = Outcome.httpError c r → retryableStatus c = false →
      fetchLoop oracle retries k used lastExc = (used + n + 1, FetchResult.httpStatusError c r) := by
  intro n
  induction n with
  | zero =>
    intro k used lastExc _ hk hn hc
    obtain ⟨k, rfl⟩ : ∃ m, k = m + 1 := ⟨k - 1, by omega⟩
    rw [show used + 0 = used from rfl] at hn
    rw [fetchLoop_step_http_fatal oracle retries k used lastExc c r hn hc]

  | succ n ih =>
    intro k used lastExc hpre hk hn hc
    obtain ⟨k, rfl⟩ : ∃ m, k = m + 1 := ⟨k - 1, by omega⟩
    have h0 : retryableFailureB (oracle used) = true := by
      have := hpre 0 (by omega)
      simpa using this
    have hrest : ∀ j, j < n → retryableFailureB (oracle (used + 1 + j)) = true := by
      intro j hj
      have := hpre (j + 1) (by omega)
      rwa [show used + (j + 1) = used + 1 + j by omega] at this
    have hn' : oracle (used + 1 + n) = Outcome.httpError c r := by
      rwa [show used + (n + 1) = used + 1 + n by omega] at hn
    have harith : used + 1 + n + 1 = used + (n + 1) + 1 := by omega
    cases ho : oracle used with
    | success b => rw [ho] at h0; simp [retryableFailureB] at h0
    | httpError c' r' =>
      rw [ho] at h0
      simp only [retryableFailureB] at h0
      rw [fetchLoop_step_http_retry oracle retries k used lastExc c' r' ho h0,
        ih k (used + 1) _ hrest (by omega) hn' hc, harith]
    | timeoutErr =>
      rw [fetchLoop_step_timeout oracle retries k used lastExc ho,
        ih k (used + 1) _ hrest (by omega) hn' hc, harith]
    | urlError r' =>
      rw [fetchLoop_step_url oracle retries k used lastExc r' ho,
        ih k (used + 1) _ hrest (by omega) hn' hc, harith]

theorem fetchLoop_exhausted (oracle : Nat → Outcome) (retries : Int) :
    ∀ k used lastExc, 1 ≤ k → (∀ j, j < k → retryableFailureB (oracle (used + j)) = true) →
      fetchLoop oracle retries k used lastExc =
        (used + k, outOfRetries retries (some (oracle (used + k - 1)))) := by
  intro k
  induction k with
  | zero => intro used lastExc h; omega
  | succ k ih =>
    intro used lastExc _ hall
    have h0 : retryableFailureB (oracle used) = true := by
      have := hall 0 (by omega)
      simpa using this
    rcases hk : k with _ | k'
    · subst hk
      have hu : used + 1 - 1 = used := by omega
      cases ho : oracle used with
      | success b => rw [ho] at h0; simp [retryableFailureB] at h0
      | httpError c' r' =>
        rw [ho] at h0
        simp only [retryableFailureB] at h0
        rw [fetchLoop_step_http_retry oracle retries 0 used lastExc c' r' ho h0,
          fetchLoop_zero, hu, ho]
      | timeoutErr =>
        rw [fetchLoop_step_timeout oracle retries 0 used lastExc ho, fetchLoop_zero, hu, ho]
      | urlError r' =>
        rw [fetchLoop_step_url oracle retries 0 used lastExc r' ho, fetchLoop_zero, hu, ho]
    · subst hk
      have hrest : ∀ j, j < k' + 1 → retryableFailureB (oracle (used + 1 + j)) = true := by
        intro j hj
        have := hall (j + 1) (by omega)
        rwa [show used + (j + 1) = used + 1 + j by omega] at this
      have heq : used + 1 + (k' + 1) = used + (k' + 1 + 1) := by omega
      have heq2 : used + 1 + (k' + 1) - 1 = used + (k' + 1 + 1) - 1 := by omega
      cases ho : oracle used with
      | success b => rw [ho] at h0; simp [retryableFailureB] at h0
      | httpError c' r' =>
        rw [ho] at h0
        simp only [retryableFailureB] at h0
        rw [fetchLoop_step_http_retry oracle retries (k' + 1) used lastExc c' r' ho h0,
          ih (used + 1) _ (by omega) hrest, heq]
      | timeoutErr =>
        rw [fetchLoop_step_timeout oracle retries (k' + 1) used lastExc ho,
          ih (used + 1) _ (by omega) hrest, heq]
      | urlError r' =>
        rw [fetchLoop_step_url oracle retries (k' + 1) used lastExc r' ho,
          ih (used + 1) _ (by omega) hrest, heq]

theorem fetchLoop_used_le (oracle : Nat → Outcome) (retries : Int) :
    ∀ k used lastExc, used ≤ (fetchLoop oracle retries k used lastExc).1 := by
  intro k
  induction k with
  | zero => intro used lastExc; simp [fetchLoop_zero]
  | succ k ih =>
    intro used lastExc
    cases ho : oracle used with
    | success b => rw [fetchLoop_step_success oracle retries k used lastExc b ho]; simp
    | httpError c' r' =>
      by_cases h : retryableStatus c' = true
      · rw [fetchLoop_step_http_retry oracle retries k used lastExc c' r' ho h]
        have := ih (used + 1) (some (Outcome.httpError c' r'))
        omega
      · simp only [Bool.not_eq_true] at h
        rw [fetchLoop_step_http_fatal oracle retries k used lastExc c' r' ho h]
        simp
    | timeoutErr =>
      rw [fetchLoop_step_timeout oracle retries k used lastExc ho]
      have := ih (used + 1) (some Outcome.timeoutErr)
      omega
    | urlError r' =>
      rw [fetchLoop_step_url oracle retries k used lastExc r' ho]
      have := ih (used + 1) (some (Outcome.urlError r'))
      omega

theorem maxAttempts_pos (retries : Int) : 1 ≤ maxAttempts retries := by
  unfold maxAttempts
  have h := Int.toNat_le_toNat (le_max_left 1 retries)
  exact h

theorem maxAttempts_of_pos (retries : Int) (h : 1 ≤ retries) :
    maxAttempts retries = retries.toNat := by
  unfold maxAttempts
  rw [max_eq_right h]

/-- Claim C5: in the transport fetcher, an HTTP error with status 429 or in
the range 500 to 599 leads to a further attempt when attempts remain, while
every other non-success status aborts immediately on the first such response,
raising an error that carries the status code and reason, with no further
attempts made.  The first n attempts fail retryably and are retried through;
the non-retryable status on attempt n + 1 ends the fetch right there with
exactly n + 1 attempts performed. -/
theorem fetch_aborts_on_nonretryable_status (oracle : Nat → Outcome) (retries : Int)
    (n : Nat) (c : Nat) (r : List Char)
    (hpre : ∀ j, j < n → retryableFailureB (oracle j) = true)
    (hrem : n + 1 ≤ maxAttempts retries)
    (hn : oracle n = Outcome.httpError c r)
    (hc : retryableStatus c = false) :
    fetch_url oracle retries = (n + 1, FetchResult.httpStatusError c r) := by
  unfold fetch_url
  have := fetchLoop_nonretryable oracle retries c r n (maxAttempts retries) 0 none
    (by intro j hj; simpa using hpre j hj) (by omega) (by simpa using hn) hc
  simpa using this

theorem fetch_aborts_on_nonretryable_status_witness :
    fetch_url (fun j => if j = 0 then Outcome.timeoutErr else Outcome.httpError 404 ['N']) 3 =
      (2, FetchResult.httpStatusError 404 ['N']) :=
  fetch_aborts_on_nonretryable_status
    (fun j => if j = 0 then Outcome.timeoutErr else Outcome.httpError 404 ['N']) 3 1 404 ['N']
    (by
      intro j hj
      have hj0 : j = 0 := by omega
      subst hj0
      decide)
    (by decide) (by decide) (by decide)

/-- Claim C6: when every attempt of the transport fetcher fails with a
retryable failure, after the last attempt it raises a timeout error if and
only if the last failure was a timeout, and otherwise a connection-failure
error; the raised error carries the attempt count (the retries parameter,
which equals the number of attempts performed when it is at least one) and
chains the last failure as its cause. -/
theorem fetch_exhausted_error_kind (oracle : Nat → Outcome) (retries : Int)
    (hpos : 1 ≤ retries)
    (hall : ∀ j, j < retries.toNat → retryableFailureB (oracle j) = true) :
    (fetch_url oracle retries).1 = retries.toNat ∧
    ((fetch_url oracle retries).2 =
        FetchResult.timeoutExceeded retries (oracle (retries.toNat - 1)) ↔
      oracle (retries.toNat - 1) = Outcome.timeoutErr) ∧
    (oracle (retries.toNat - 1) ≠ Outcome.timeoutErr →
      (fetch_url oracle retries).2 =
        FetchResult.connectionFailed retries (some (oracle (retries.toNat - 1)))) := by
  have hmax : maxAttempts retries = retries.toNat := maxAttempts_of_pos retries hpos
  have hk1 : 1 ≤ retries.toNat := by omega
  have hrun : fetch_url oracle retries =
      (retries.toNat, outOfRetries retries (some (oracle (retries.toNat - 1)))) := by
    unfold fetch_url
    rw [hmax]
    have := fetchLoop_exhausted oracle retries retries.toNat 0 none hk1
      (by intro j hj; simpa using hall j hj)
    simpa using this
  rw [hrun]
  refine ⟨rfl, ?_, ?_⟩
  · cases ho : oracle (retries.toNat - 1) with
    | success b => simp [outOfRetries]
    | httpError c' r' => simp [outOfRetries]
    | timeoutErr => simp [outOfRetries]
    | urlError r' => simp [outOfRetries]
  · intro hne
    cases ho : oracle (retries.toNat - 1) with
    | success b => simp [outOfRetries]
    | httpError c' r' => simp [outOfRetries]
    | timeoutErr => exact absurd ho hne
    | urlError r' => simp [outOfRetries]

theorem fetch_exhausted_error_kind_witness :
    fetch_url (fun _ => Outcome.urlError []) 2 =
      (2, FetchResult.connectionFailed 2 (some (Outcome.urlError []))) := by
  have h := fetch_exhausted_error_kind (fun _ => Outcome.urlError []) 2 (by decide)
    (fun j hj => rfl)
  have h1 : (fetch_url (fun _ => Outcome.urlError []) 2).1 = 2 := by
    have := h.1
    simpa using this
  have h2 : (fetch_url (fun _ => Outcome.urlError []) 2).2 =
      FetchResult.connectionFailed 2 (some (Outcome.urlError [])) := by
    have := h.2.2 (by decide)
    simpa using this
  exact Prod.ext h1 h2

/-- Claim C10: for every retries value, including zero and negative values,
the transport fetcher performs at least one HTTP attempt, and exactly the
maximum of one and retries attempts when every attempt fails retryably; the
attempt loop never runs zero times, so a failing fetch raises an error whose
cause is the outcome of a real attempt, namely the last one. -/
theorem fetch_at_least_one_attempt (oracle : Nat → Outcome) (retries : Int) :
    1 ≤ (fetch_url oracle retries).1 ∧
    ((∀ j, j < maxAttempts retries → retryableFailureB (oracle j) = true) →
      (fetch_url oracle retries).1 = maxAttempts retries ∧
      1 ≤ maxAttempts retries ∧
      (fetch_url oracle retries).2 =
        outOfRetries retries (some (oracle (maxAttempts retries - 1)))) := by
  constructor
  · unfold fetch_url
    obtain ⟨m, hm⟩ : ∃ m, maxAttempts retries = m + 1 := by
      have := maxAttempts_pos retries
      exact ⟨maxAttempts retries - 1, by omega⟩
    rw [hm]
    cases ho : oracle 0 with
    | success b => rw [fetchLoop_step_success oracle retries m 0 none b ho]
    | httpError c' r' =>
      by_cases hr : retryableStatus c' = true
      · rw [fetchLoop_step_http_retry oracle retries m 0 none c' r' ho hr]
        have := fetchLoop_used_le oracle retries m (0 + 1) (some (Outcome.httpError c' r'))
        omega
      · simp only [Bool.not_eq_true] at hr
        rw [fetchLoop_step_http_fatal oracle retries m 0 none c' r' ho hr]
    | timeoutErr =>
      rw [fetchLoop_step_timeout oracle retries m 0 none ho]
      have := fetchLoop_used_le oracle retries m (0 + 1) (some Outcome.timeoutErr)
      omega
    | urlError r' =>
      rw [fetchLoop_step_url oracle retries m 0 none r' ho]
      have := fetchLoop_used_le oracle retries m (0 + 1) (some (Outcome.urlError r'))
      omega
  · intro hall
    have hk1 : 1 ≤ maxAttempts retries := maxAttempts_pos retries
    have hrun : fetch_url oracle retries =
        (maxAttempts retries,
          outOfRetries retries (some (oracle (maxAttempts retries - 1)))) := by
      unfold fetch_url
      have := fetchLoop_exhausted oracle retries (maxAttempts retries) 0 none hk1
        (by intro j hj; simpa using hall j hj)
      simpa using this
    rw [hrun]
    exact ⟨rfl, hk1, rfl⟩

theorem fetch_at_least_one_attempt_witness :
    fetch_url (fun _ => Outcome.timeoutErr) 0 =
      (1, FetchResult.timeoutExceeded 0 Outcome.timeoutErr) := by
  have h := (fetch_at_least_one_attempt (fun _ => Outcome.timeoutErr) 0).2
    (fun j hj => rfl)
  have h1 : (fetch_url (fun _ => Outcome.timeoutErr) 0).1 = 1 := by
    have := h.1
    simpa [maxAttempts] using this
  have h2 : (fetch_url (fun _ => Outcome.timeoutErr) 0).2 =
      FetchResult.timeoutExceeded 0 Outcome.timeoutErr := by
    have := h.2.2
    simpa [maxAttempts, outOfRetries] using this
  exact Prod.ext h1 h2

/-! ## Category deduplication lemmas -/

theorem dedupeAux_mem (x : List Char) :
    ∀ l seen, x ∈ dedupeAux seen l ↔ x ∈ l ∧ x ∉ seen := by
  intro l
  induction l with
  | nil => intro seen; simp [dedupeAux]
  | cons v rest ih =>
    intro seen
    by_cases hv : v ∈ seen
    · rw [dedupeAux, if_pos hv, ih]
      constructor
      · rintro ⟨h1, h2⟩
        exact ⟨List.mem_cons_of_mem v h1, h2⟩
      · rintro ⟨h1, h2⟩
        rcases List.mem_cons.mp h1 with h | h
        · subst h; exact absurd hv h2
        · exact ⟨h, h2⟩
    · rw [dedupeAux, if_neg hv]
      constructor
      · intro h
        rcases List.mem_cons.mp h with h | h
        · subst h; exact ⟨List.mem_cons_self _ _, hv⟩
        · rw [ih] at h
          refine ⟨List.mem_cons_of_mem v h.1, ?_⟩
          intro hx
          exact h.2 (List.mem_cons_of_mem v hx)
      · rintro ⟨h1, h2⟩
        rcases List.mem_cons.mp h1 with h | h
        · subst h; exact List.mem_cons_self x _
        · by_cases hxv : x = v
          · subst hxv; exact List.mem_cons_self x _
          · refine List.mem_cons_of_mem _ ?_
            rw [ih]
            refine ⟨h, ?_⟩
            intro hx
            rcases List.mem_cons.mp hx with h' | h'
            · exact hxv h'
            · exact h2 h'

theorem dedupeAux_nodup : ∀ (l seen : List (List Char)), (dedupeAux seen l).Nodup := by
  intro l
  induction l with
  | nil => intro seen; simp [dedupeAux]
  | cons v rest ih =>
    intro seen
    by_cases hv : v ∈ seen
    · rw [dedupeAux, if_pos hv]; exact ih seen
    · rw [dedupeAux, if_neg hv]
      refine List.nodup_cons.mpr ⟨?_, ih (v :: seen)⟩
      intro hmem
      rw [dedupeAux_mem] at hmem
      exact hmem.2 (List.mem_cons_self v seen)

theorem firstIdx_cons_self (v : List Char) (rest : List (List Char)) :
    firstIdx (v :: rest) v = 0 := by
  simp [firstIdx]

theorem firstIdx_cons_ne (v x : List Char) (rest : List (List Char)) (h : v ≠ x) :
    firstIdx (v :: rest) x = firstIdx rest x + 1 := by
  simp [firstIdx, h]

theorem dedupeAux_pairwise_firstIdx :
    ∀ (l seen : List (List Char)),
      (dedupeAux seen l).Pairwise (fun x y => firstIdx l x < firstIdx l y) := by
  intro l
  induction l with
  | nil => intro seen; simp [dedupeAux]
  | cons v rest ih =>
    intro seen
    by_cases hv : v ∈ seen
    · rw [dedupeAux, if_pos hv]
      refine List.Pairwise.imp_of_mem ?_ (ih seen)
      intro x y hx hy hlt
      have hxv : x ≠ v := by
        intro h
        subst h
        exact ((dedupeAux_mem x rest seen).mp hx).2 hv
      have hyv : y ≠ v := by
        intro h
        subst h
        exact ((dedupeAux_mem y rest seen).mp hy).2 hv
      rw [firstIdx_cons_ne v x rest (fun h => hxv h.symm),
        firstIdx_cons_ne v y rest (fun h => hyv h.symm)]
      omega
    · rw [dedupeAux, if_neg hv]
      refine List.pairwise_cons.mpr ⟨?_, ?_⟩
      · intro y hy
        have hyv : y ≠ v := by
          intro h
          subst h
          exact ((dedupeAux_mem y rest (y :: seen)).mp hy).2 (List.mem_cons_self y seen)
        rw [firstIdx_cons_self, firstIdx_cons_ne v y rest (fun h => hyv h.symm)]
        omega
      · refine List.Pairwise.imp_of_mem ?_ (ih (v :: seen))
        intro x y hx hy hlt
        have hxv : x ≠ v := by
          intro h
          subst h
          exact ((dedupeAux_mem x rest (x :: seen)).mp hx).2 (List.mem_cons_self _ _)
        have hyv : y ≠ v := by
          intro h
          subst h
          exact ((dedupeAux_mem y rest (y :: seen)).mp hy).2 (List.mem_cons_self _ _)
        rw [firstIdx_cons_ne v x rest (fun h => hxv h.symm),
          firstIdx_cons_ne v y rest (fun h => hyv h.symm)]
        omega

theorem dedupe_mem (l : List (List Char)) (x : List Char) : x ∈ dedupe l ↔ x ∈ l := by
  unfold dedupe
  rw [dedupeAux_mem]
  simp

theorem dedupe_eq_nil_iff (l : List (List Char)) : dedupe l = [] ↔ l = [] := by
  constructor
  · intro h
    by_contra hne
    obtain ⟨v, rest, rfl⟩ := List.exists_cons_of_ne_nil hne
    have : v ∈ dedupe (v :: rest) := (dedupe_mem _ v).mpr (List.mem_cons_self v rest)
    rw [h] at this
    exact absurd this (List.not_mem_nil v)
  · intro h; subst h; rfl

/-! ## Strip lemmas -/

theorem dropWhile_head_not (p : Char → Bool) :
    ∀ (l : List Char) c, (l.dropWhile p).head? = some c → p c = false := by
  intro l
  induction l with
  | nil => intro c h; simp at h
  | cons a rest ih =>
    intro c h
    rw [List.dropWhile_cons] at h
    by_cases ha : p a = true
    · rw [if_pos ha] at h
      exact ih c h
    · rw [if_neg ha] at h
      simp only [List.head?_cons, Option.some.injEq] at h
      subst h
      simpa using ha

theorem lstrip_head (l : List Char) (c : Char) (h : (lstrip l).head? = some c) :
    isSpaceB c = false :=
  dropWhile_head_not isSpaceB l c h

theorem rstrip_getLast (l : List Char) (c : Char) (h : (rstrip l).getLast? = some c) :
    isSpaceB c = false := by
  unfold rstrip at h
  rw [List.getLast?_reverse] at h
  exact dropWhile_head_not isSpaceB l.reverse c h

theorem lstrip_of_head (l : List Char) (h : ∀ c, l.head? = some c → isSpaceB c = false) :
    lstrip l = l := by
  cases l with
  | nil => rfl
  | cons a rest =>
    unfold lstrip
    rw [List.dropWhile_cons, if_neg]
    rw [h a rfl]
    simp

theorem rstrip_of_getLast (l : List Char)
    (h : ∀ c, l.getLast? = some c → isSpaceB c = false) : rstrip l = l := by
  unfold rstrip
  have hh : ∀ c, l.reverse.head? = some c → isSpaceB c = false := by
    intro c hc
    rw [List.head?_reverse] at hc
    exact h c hc
  have := lstrip_of_head l.reverse hh
  unfold lstrip at this
  rw [this, List.reverse_reverse]

theorem rstrip_prefix (l : List Char) :
    l = rstrip l ++ (l.reverse.takeWhile isSpaceB).reverse := by
  unfold rstrip
  have h := congrArg List.reverse (List.takeWhile_append_dropWhile isSpaceB l.reverse)
  rw [List.reverse_append, List.reverse_reverse] at h
  exact h.symm

theorem strip_getLast (l : List Char) (c : Char) (h : (strip l).getLast? = some c) :
    isSpaceB c = false :=
  rstrip_getLast (lstrip l) c h

theorem strip_head (l : List Char) (c : Char) (h : (strip l).head? = some c) :
    isSpaceB c = false := by
  unfold strip at h
  have hne : rstrip (lstrip l) ≠ [] := by
    intro hnil
    rw [hnil] at h
    simp at h
  have hpre := rstrip_prefix (lstrip l)
  have hhd : (lstrip l).head? = some c := by
    rw [hpre]
    cases hr : rstrip (lstrip l) with
    | nil => exact absurd hr hne
    | cons a t =>
      rw [hr] at h
      simp only [List.head?_cons, Option.some.injEq] at h
      subst h
      simp
  exact lstrip_head l c hhd

theorem strip_fix (l : List Char)
    (h1 : ∀ c, l.head? = some c → isSpaceB c = false)
    (h2 : ∀ c, l.getLast? = some c → isSpaceB c = false) : strip l = l := by
  unfold strip
  rw [lstrip_of_head l h1, rstrip_of_getLast l h2]

theorem strip_strip (l : List Char) : strip (strip l) = strip l :=
  strip_fix (strip l) (strip_head l) (strip_getLast l)

theorem strip_of_all_nonspace (l : List Char)
    (h : ∀ c, c ∈ l → isSpaceB c = false) : strip l = l := by
  refine strip_fix l ?_ ?_
  · intro c hc
    exact h c (List.mem_of_mem_head? hc)
  · intro c hc
    have : c ∈ l := by
      rw [← List.head?_reverse] at hc
      have := List.mem_of_mem_head? hc
      simpa using this
    exact h c this

theorem rstrip_length_le (l : List Char) : (rstrip l).length ≤ l.length := by
  unfold rstrip
  rw [List.length_reverse]
  calc (l.reverse.dropWhile isSpaceB).length ≤ l.reverse.length :=
        (List.dropWhile_sublist _).length_le
    _ = l.length := List.length_reverse l

theorem strip_length_le (l : List Char) : (strip l).length ≤ l.length := by
  unfold strip
  calc (rstrip (lstrip l)).length ≤ (lstrip l).length := rstrip_length_le _
    _ ≤ l.length := (List.dropWhile_sublist _).length_le

/-! ## Category claims -/

theorem tags_map_term_mk (l : List (List Char)) :
    (l.map FFTag.mk).map FFTag.term = l := by
  rw [List.map_map]
  exact List.map_id l

/-- Claim C7: for every item whose collected raw category list contains
duplicates, the normalized entry tags contain no duplicate term values,
preserve first-seen order of the raw list (the term sequence is pairwise
ordered by first occurrence index in the raw list and has the same members),
and satisfy the invariant that when tags is non-empty the category equals the
term of the first tag. -/
theorem entry_tags_dedup_first_seen (item : XmlItem) (ft : FeedType)
    (hdup : ¬ (collect_raw item ft).Nodup) :
    ((normalizeEntryCats item ft).tags.map FFTag.term).Nodup ∧
    (∀ x, x ∈ (normalizeEntryCats item ft).tags.map FFTag.term ↔
      x ∈ collect_raw item ft) ∧
    ((normalizeEntryCats item ft).tags.map FFTag.term).Pairwise
      (fun x y => firstIdx (collect_raw item ft) x < firstIdx (collect_raw item ft) y) ∧
    ((normalizeEntryCats item ft).tags ≠ [] →
      ∃ t ts, (normalizeEntryCats item ft).tags = t :: ts ∧
        (normalizeEntryCats item ft).category = t.term) := by
  have hraw : collect_raw item ft ≠ [] := by
    intro h
    rw [h] at hdup
    exact hdup List.nodup_nil
  have hded : collect_categories item ft ≠ [] := by
    unfold collect_categories
    intro h
    exact hraw ((dedupe_eq_nil_iff _).mp h)
  obtain ⟨c, rest, hcr⟩ := List.exists_cons_of_ne_nil hded
  have hentry : normalizeEntryCats item ft =
      { category := c, tags := (c :: rest).map FFTag.mk } := by
    unfold normalizeEntryCats
    rw [hcr]
  have htags : (normalizeEntryCats item ft).tags.map FFTag.term =
      dedupe (collect_raw item ft) := by
    rw [hentry]
    show ((c :: rest).map FFTag.mk).map FFTag.term = _
    rw [tags_map_term_mk, ← hcr]
    rfl
  refine ⟨?_, ?_, ?_, ?_⟩
  · rw [htags]
    exact dedupeAux_nodup _ []
  · intro x
    rw [htags]
    exact dedupe_mem _ x
  · rw [htags]
    exact dedupeAux_pairwise_firstIdx _ []
  · intro _
    refine ⟨FFTag.mk c, rest.map FFTag.mk, ?_, ?_⟩
    · rw [hentry]
      rfl
    · rw [hentry]

theorem entry_tags_dedup_first_seen_witness :
    ¬ (collect_raw
        ⟨[⟨tagCategory, [], some "News".toList⟩,
          ⟨tagCategory, [], some "News".toList⟩]⟩ FeedType.rss).Nodup ∧
    ((normalizeEntryCats
        ⟨[⟨tagCategory, [], some "News".toList⟩,
          ⟨tagCategory, [], some "News".toList⟩]⟩ FeedType.rss).tags.map FFTag.term).Nodup :=
  ⟨by decide,
    (entry_tags_dedup_first_seen
      ⟨[⟨tagCategory, [], some "News".toList⟩,
        ⟨tagCategory, [], some "News".toList⟩]⟩ FeedType.rss (by decide)).1⟩

/-- Claim C8: for every item from which no category value is collected, such
as an Atom entry with no category element, the normalized entry has the empty
string as category and the empty list as tags.  The structural fields come
from the external feed-entry parser collaborator, modelled from the spec with
the explicit empty convention. -/
theorem atom_without_categories_empty (item : XmlItem)
    (h : collect_raw item FeedType.atom = []) :
    (normalizeEntryCats item FeedType.atom).category = [] ∧
    (normalizeEntryCats item FeedType.atom).tags = [] := by
  have hded : collect_categories item FeedType.atom = [] := by
    unfold collect_categories
    rw [h]
    rfl
  unfold normalizeEntryCats
  rw [hded]
  exact ⟨rfl, rfl⟩

theorem atom_without_categories_empty_witness :
    (normalizeEntryCats ⟨[⟨"title".toList, [], some "Hi".toList⟩]⟩
        FeedType.atom).category = [] ∧
    (normalizeEntryCats ⟨[⟨"title".toList, [], some "Hi".toList⟩]⟩
        FeedType.atom).tags = [] :=
  atom_without_categories_empty ⟨[⟨"title".toList, [], some "Hi".toList⟩]⟩ (by decide)

/-- Claim C9 counterexample: an Atom category element whose term attribute is
whitespace-only contributes an empty-string category value, contrary to the
claim that each candidate is trimmed before the acceptance check and that such
an element contributes no category value: the code checks truthiness of the
untrimmed attribute and trims only on append. -/
theorem atom_ws_term_contributes_empty :
    collect_raw ⟨[⟨tagAtomCategory, [(keyTerm, "   ".toList)], none⟩]⟩ FeedType.atom =
      [[]] ∧
    ([[]] : List (List Char)) ≠ [] ∧
    normalizeEntryCats ⟨[⟨tagAtomCategory, [(keyTerm, "   ".toList)], none⟩]⟩
        FeedType.atom =
      { category := [], tags := [{ term := [] }] } := by
  refine ⟨by decide, by decide, by decide⟩

/-- Claim C9 as amended: for every Atom category element the collected
candidate follows the preference order term attribute, label attribute, then
element text; the attribute candidates are accepted when non-empty as given
and trimmed only on acceptance, while the text candidate is trimmed before
the check; hence a whitespace-only term attribute contributes the empty
string. -/
theorem strip_nil : strip ([] : List Char) = [] := rfl

theorem atom_candidate_preference (c : XmlNode) :
    atomCatValue c = atomCatValueSpec c := by
  have hmain : ∀ x : List Char, x ≠ [] →
      (if strip x = [] then none else some (strip (strip x))) =
        (if strip x = [] then none else some (strip x) : Option (List Char)) := by
    intro x _
    by_cases hsx : strip x = []
    · rw [if_pos hsx, if_pos hsx]
    · rw [if_neg hsx, if_neg hsx, strip_strip]
  have htext : ∀ t0 : Option (List Char), pyTruthyOpt t0 = false →
      (t0 = none ∨ t0 = some []) := by
    intro t0 h
    cases t0 with
    | none => exact Or.inl rfl
    | some u =>
      have hu : u = [] := by simpa [pyTruthyOpt, List.isEmpty_iff] using h
      exact Or.inr (by rw [hu])
  rcases hT : getAttr c keyTerm with _ | t
  ·
    rcases hL : getAttr c keyLabel with _ | u
    ·
      rcases hX : c.text with _ | x
      · simp [atomCatValue, atomCatValueSpec, pyOrOpt, pyTruthyOpt, hT, hL, hX, strip_nil]
      ·
        by_cases hx : x = []
        · subst hx
          simp [atomCatValue, atomCatValueSpec, pyOrOpt, pyTruthyOpt, hT, hL, hX, strip_nil]
        · have hxB : x.isEmpty = false := by simpa [List.isEmpty_iff] using hx
          by_cases hsx : strip x = []
          · simp [atomCatValue, atomCatValueSpec, pyOrOpt, pyTruthyOpt, hT, hL, hX, hxB, hsx]
          · simp [atomCatValue, atomCatValueSpec, pyOrOpt, pyTruthyOpt, hT, hL, hX, hxB, hsx,
              strip_strip]
    ·
      by_cases hu : u = []
      · subst hu
        rcases hX : c.text with _ | x
        · simp [atomCatValue, atomCatValueSpec, pyOrOpt, pyTruthyOpt, hT, hL, hX, strip_nil]
        ·
          by_cases hx : x = []
          · subst hx
            simp [atomCatValue, atomCatValueSpec, pyOrOpt, pyTruthyOpt, hT, hL, hX, strip_nil]
          · have hxB : x.isEmpty = false := by simpa [List.isEmpty_iff] using hx
            by_cases hsx : strip x = []
            · simp [atomCatValue, atomCatValueSpec, pyOrOpt, pyTruthyOpt, hT, hL, hX, hxB, hsx]
            · simp [atomCatValue, atomCatValueSpec, pyOrOpt, pyTruthyOpt, hT, hL, hX, hxB, hsx,
                strip_strip]
      · have huB : u.isEmpty = false := by simpa [List.isEmpty_iff] using hu
        simp [atomCatValue, atomCatValueSpec, pyOrOpt, pyTruthyOpt, hT, hL, huB, hu]
  ·
    by_cases ht : t = []
    · subst ht
      rcases hL : getAttr c keyLabel with _ | u
      ·
        rcases hX : c.text with _ | x
        · simp [atomCatValue, atomCatValueSpec, pyOrOpt, pyTruthyOpt, hT, hL, hX, strip_nil]
        ·
          by_cases hx : x = []
          · subst hx
            simp [atomCatValue, atomCatValueSpec, pyOrOpt, pyTruthyOpt, hT, hL, hX, strip_nil]
          · have hxB : x.isEmpty = false := by simpa [List.isEmpty_iff] using hx
            by_cases hsx : strip x = []
            · simp [atomCatValue, atomCatValueSpec, pyOrOpt, pyTruthyOpt, hT, hL, hX, hxB, hsx]
            · simp [atomCatValue, atomCatValueSpec, pyOrOpt, pyTruthyOpt, hT, hL, hX, hxB, hsx,
                strip_strip]
      ·
        by_cases hu : u = []
        · subst hu
          rcases hX : c.text with _ | x
          · simp [atomCatValue, atomCatValueSpec, pyOrOpt, pyTruthyOpt, hT, hL, hX, strip_nil]
          ·
            by_cases hx : x = []
            · subst hx
              simp [atomCatValue, atomCatValueSpec, pyOrOpt, pyTruthyOpt, hT, hL, hX, strip_nil]
            · have hxB : x.isEmpty = false := by simpa [List.isEmpty_iff] using hx
              by_cases hsx : strip x = []
              · simp [atomCatValue, atomCatValueSpec, pyOrOpt, pyTruthyOpt, hT, hL, hX, hxB,
                  hsx]
              · simp [atomCatValue, atomCatValueSpec, pyOrOpt, pyTruthyOpt, hT, hL, hX, hxB,
                  hsx, strip_strip]
        · have huB : u.isEmpty = false := by simpa [List.isEmpty_iff] using hu
          simp [atomCatValue, atomCatValueSpec, pyOrOpt, pyTruthyOpt, hT, hL, huB, hu]
    · have htB : t.isEmpty = false := by simpa [List.isEmpty_iff] using ht
      simp [atomCatValue, atomCatValueSpec, pyOrOpt, pyTruthyOpt, hT, htB, ht]

/-! ## Segmenter scanning lemmas -/

theorem drop_length_takeWhile (p : Char → Bool) :
    ∀ l : List Char, l.drop (l.takeWhile p).length = l.dropWhile p := by
  intro l
  induction l with
  | nil => rfl
  | cons c rest ih =>
    by_cases hc : p c = true
    · rw [List.takeWhile_cons, if_pos hc, List.dropWhile_cons, if_pos hc]
      simpa using ih
    · rw [List.takeWhile_cons, if_neg hc, List.dropWhile_cons, if_neg hc]
      simp

theorem matchTagAt_some_decomp (l m : List Char) (h : matchTagAt l = some m) :
    ∃ body, m = '#' :: body ∧ body ≠ [] ∧ (∀ c, c ∈ body → isHashBodyChar c = true) ∧
      l = m ++ l.drop m.length := by
  cases l with
  | nil => simp [matchTagAt] at h
  | cons c rest =>
    rw [matchTagAt] at h
    by_cases hc : c = '#'
    · rw [if_pos hc] at h
      by_cases hb : rest.takeWhile isHashBodyChar = []
      · rw [if_pos hb] at h; exact absurd h (by simp)
      · rw [if_neg hb] at h
        have hm : m = '#' :: rest.takeWhile isHashBodyChar := (Option.some.inj h).symm
        refine ⟨rest.takeWhile isHashBodyChar, hm, hb, ?_, ?_⟩
        · intro x hx; exact List.mem_takeWhile_imp hx
        · subst hm
          subst hc
          have h1 : ('#' :: rest).drop ('#' :: rest.takeWhile isHashBodyChar).length =
              rest.dropWhile isHashBodyChar := by
            show rest.drop (rest.takeWhile isHashBodyChar).length = _
            exact drop_length_takeWhile _ rest
          rw [h1, List.cons_append]
          congr 1
          exact (List.takeWhile_append_dropWhile _ _).symm
    · rw [if_neg hc] at h
      exact absurd h (by simp)

theorem matchTagAt_decomp (l m : List Char) (h : matchTagAt l = some m) :
    m ≠ [] ∧ l = m ++ l.drop m.length := by
  obtain ⟨body, hm, _, _, hl⟩ := matchTagAt_some_decomp l m h
  exact ⟨by rw [hm]; simp, hl⟩

theorem matchUrlScheme_decomp (scheme l m : List Char) (hs : scheme ≠ [])
    (h : matchUrlScheme scheme l = some m) : m ≠ [] ∧ l = m ++ l.drop m.length := by
  unfold matchUrlScheme at h
  by_cases hp : l.take scheme.length = scheme
  · rw [if_pos hp] at h
    by_cases hb : (l.drop scheme.length).takeWhile (fun c => !(isSpaceB c)) = []
    · rw [if_pos hb] at h; exact absurd h (by simp)
    · rw [if_neg hb] at h
      have hm : m = scheme ++ (l.drop scheme.length).takeWhile (fun c => !(isSpaceB c)) :=
        (Option.some.inj h).symm
      constructor
      · rw [hm]
        intro hnil
        rw [List.append_eq_nil] at hnil
        exact hs hnil.1
      · have h1 : l = scheme ++ l.drop scheme.length := by
          conv_lhs => rw [← List.take_append_drop scheme.length l]
          rw [hp]
        have h2 : l.drop scheme.length =
            (l.drop scheme.length).takeWhile (fun c => !(isSpaceB c)) ++
              (l.drop scheme.length).dropWhile (fun c => !(isSpaceB c)) :=
          (List.takeWhile_append_dropWhile _ _).symm
        have h3 : l.drop m.length =
            (l.drop scheme.length).dropWhile (fun c => !(isSpaceB c)) := by
          rw [hm, List.length_append, ← List.drop_drop, drop_length_takeWhile]
        rw [h3, hm, List.append_assoc]
        rw [← h2]
        exact h1
  · rw [if_neg hp] at h
    exact absurd h (by simp)

theorem matchUrlAt_decomp (l m : List Char) (h : matchUrlAt l = some m) :
    m ≠ [] ∧ l = m ++ l.drop m.length := by
  unfold matchUrlAt at h
  cases hh : matchUrlScheme schemeHttps l with
  | some m' =>
    rw [hh] at h
    have hm : m' = m := Option.some.inj h
    subst hm
    exact matchUrlScheme_decomp schemeHttps l m' (by decide) hh
  | none =>
    rw [hh] at h
    exact matchUrlScheme_decomp schemeHttp l m (by decide) h

theorem findFirstBy_decomp (matchAt : List Char → Option (List Char))
    (hdec : ∀ y m, matchAt y = some m → m ≠ [] ∧ y = m ++ y.drop m.length) :
    ∀ l b m a, findFirstBy matchAt l = some (b, m, a) →
      l = b ++ m ++ a ∧ m ≠ [] ∧ matchAt (m ++ a) = some m := by
  intro l
  induction l with
  | nil => intro b m a h; simp [findFirstBy] at h
  | cons c rest ih =>
    intro b m a h
    rw [findFirstBy] at h
    cases hm : matchAt (c :: rest) with
    | some m' =>
      rw [hm] at h
      simp only [Option.some.injEq, Prod.mk.injEq] at h
      obtain ⟨hb, hmm, ha⟩ := h
      obtain ⟨hne, hdec'⟩ := hdec (c :: rest) m' hm
      rw [← hb, ← hmm, ← ha]
      refine ⟨by simpa using hdec', hne, ?_⟩
      rw [← hdec']
      exact hm
    | none =>
      rw [hm] at h
      cases hf : findFirstBy matchAt rest with
      | some bma =>
        obtain ⟨b', m', a'⟩ := bma
        rw [hf] at h
        simp only [Option.some.injEq, Prod.mk.injEq] at h
        obtain ⟨hb, hmm, ha⟩ := h
        rw [← hb, ← hmm, ← ha]
        obtain ⟨hr, hne, hmat⟩ := ih b' m' a' hf
        refine ⟨?_, hne, hmat⟩
        rw [hr]
        simp
      | none => rw [hf] at h; exact absurd h (by simp)

theorem findFirstBy_none (matchAt : List Char → Option (List Char))
    (hemp : matchAt [] = none) :
    ∀ l, findFirstBy matchAt l = none → ∀ x y, l = x ++ y → matchAt y = none := by
  intro l
  induction l with
  | nil =>
    intro _ x y hxy
    have hy : y = [] := by
      cases y with
      | nil => rfl
      | cons d t =>
        have := congrArg List.length hxy
        simp [List.length_append] at this
        omega
    rw [hy]
    exact hemp
  | cons c rest ih =>
    intro h x y hxy
    rw [findFirstBy] at h
    cases hm : matchAt (c :: rest) with
    | some m' => rw [hm] at h; exact absurd h (by simp)
    | none =>
      rw [hm] at h
      have hf : findFirstBy matchAt rest = none := by
        cases hf : findFirstBy matchAt rest with
        | some bma =>
          obtain ⟨b', m', a'⟩ := bma
          rw [hf] at h
          exact absurd h (by simp)
        | none => rfl
      cases x with
      | nil =>
        simp only [List.nil_append] at hxy
        rw [← hxy]
        exact hm
      | cons c' x' =>
        rw [List.cons_append] at hxy
        have hrest : rest = x' ++ y := by
          injection hxy.symm with h1 h2
          exact h2.symm
        exact ih hf x' y hrest

theorem findFirstBy_leftmost (matchAt : List Char → Option (List Char)) :
    ∀ l b0 m0 a0, findFirstBy matchAt l = some (b0, m0, a0) →
      ∀ x y, l = x ++ y → x.length < b0.length → matchAt y = none := by
  intro l
  induction l with
  | nil => intro b0 m0 a0 h; simp [findFirstBy] at h
  | cons c rest ih =>
    intro b0 m0 a0 h x y hxy hlen
    rw [findFirstBy] at h
    cases hm : matchAt (c :: rest) with
    | some m' =>
      rw [hm] at h
      simp only [Option.some.injEq, Prod.mk.injEq] at h
      obtain ⟨hb, _, _⟩ := h
      rw [← hb] at hlen
      simp at hlen
    | none =>
      rw [hm] at h
      cases hf : findFirstBy matchAt rest with
      | some bma =>
        obtain ⟨b', m', a'⟩ := bma
        rw [hf] at h
        simp only [Option.some.injEq, Prod.mk.injEq] at h
        obtain ⟨hb, hmm, ha⟩ := h
        cases x with
        | nil =>
          simp only [List.nil_append] at hxy
          rw [← hxy]
          exact hm
        | cons c' x' =>
          rw [List.cons_append] at hxy
          have hrest : rest = x' ++ y := by
            injection hxy.symm with h1 h2
            exact h2.symm
          have hlen' : x'.length < b'.length := by
            rw [← hb] at hlen
            simp at hlen
            omega
          exact ih b' m' a' hf x' y hrest hlen'
      | none => rw [hf] at h; exact absurd h (by simp)

theorem tagSplitFuel_flatten :
    ∀ fuel l, l.length ≤ fuel → (tagSplitFuel fuel l).flatten = l := by
  intro fuel
  induction fuel with
  | zero => intro l _; simp [tagSplitFuel]
  | succ fuel ih =>
    intro l hl
    rw [tagSplitFuel]
    cases hf : findFirstTag l with
    | none => simp
    | some bma =>
      obtain ⟨b, m, a⟩ := bma
      show (b :: m :: tagSplitFuel fuel a).flatten = l
      obtain ⟨hdecomp, hne, _⟩ :=
        findFirstBy_decomp matchTagAt matchTagAt_decomp l b m a hf
      have ha : a.length ≤ fuel := by
        have := congrArg List.length hdecomp
        simp only [List.length_append] at this
        have hm1 : 1 ≤ m.length := by
          cases m with
          | nil => exact absurd rfl hne
          | cons _ _ => simp
        omega
      rw [List.flatten_cons, List.flatten_cons, ih a ha, hdecomp]
      simp

theorem tagSplit_flatten (l : List Char) : (tagSplit l).flatten = l :=
  tagSplitFuel_flatten l.length l le_rfl

theorem spanDisplay_pieceSpan (t : List Char) : spanDisplay (pieceSpan t) = t := by
  unfold pieceSpan
  by_cases h : t.head? = some '#'
  · rw [if_pos h]; rfl
  · rw [if_neg h]; rfl

theorem displayConcat_append (x y : List Span) :
    displayConcat (x ++ y) = displayConcat x ++ displayConcat y := by
  unfold displayConcat
  rw [List.map_append, List.flatten_append]

theorem displayConcat_emitTagSplit (s : List Char) :
    displayConcat (emitTagSplit s) = s := by
  unfold displayConcat emitTagSplit
  rw [List.map_map]
  have hcomp : (spanDisplay ∘ pieceSpan) = id := by
    funext t
    exact spanDisplay_pieceSpan t
  rw [hcomp, List.map_id]
  exact tagSplit_flatten s

theorem lineSpansFuel_displays :
    ∀ fuel l, l.length ≤ fuel → displayConcat (lineSpansFuel fuel l) = l := by
  intro fuel
  induction fuel with
  | zero =>
    intro l hl
    have hnil : l = [] := List.length_eq_zero.mp (Nat.le_zero.mp hl)
    subst hnil
    rfl
  | succ fuel ih =>
    intro l hl
    rw [lineSpansFuel]
    cases hf : findFirstUrl l with
    | none =>
      show displayConcat (if l = [] then [] else emitTagSplit l) = l
      by_cases hl0 : l = []
      · rw [if_pos hl0, hl0]; rfl
      · rw [if_neg hl0]
        exact displayConcat_emitTagSplit l
    | some bma =>
      obtain ⟨b, m, a⟩ := bma
      show displayConcat
        ((if b = [] then [] else emitTagSplit b) ++ (Span.link m m :: lineSpansFuel fuel a)) = l
      obtain ⟨hdecomp, hne, _⟩ :=
        findFirstBy_decomp matchUrlAt matchUrlAt_decomp l b m a hf
      have ha : a.length ≤ fuel := by
        have := congrArg List.length hdecomp
        simp only [List.length_append] at this
        have hm1 : 1 ≤ m.length := by
          cases m with
          | nil => exact absurd rfl hne
          | cons _ _ => simp
        omega
      rw [displayConcat_append]
      have hb : displayConcat (if b = [] then [] else emitTagSplit b) = b := by
        by_cases hb0 : b = []
        · rw [if_pos hb0, hb0]; rfl
        · rw [if_neg hb0]
          exact displayConcat_emitTagSplit b
      rw [hb]
      have hlink : displayConcat (Span.link m m :: lineSpansFuel fuel a) =
          m ++ displayConcat (lineSpansFuel fuel a) := rfl
      rw [hlink, ih a ha, hdecomp]
      simp

theorem lineSpans_displays (l : List Char) : displayConcat (lineSpans l) = l :=
  lineSpansFuel_displays l.length l le_rfl

theorem splitNl_ne_nil (l : List Char) : splitNl l ≠ [] := by
  cases l with
  | nil => simp [splitNl]
  | cons c rest =>
    rw [splitNl]
    by_cases hc : c = '\n'
    · rw [if_pos hc]; simp
    · rw [if_neg hc]
      cases h : splitNl rest with
      | nil => simp
      | cons hh tt => simp

theorem displayConcat_lines (lines : List (List Char)) :
    displayConcat ((lines.map (fun line => lineSpans line ++ [Span.text ['\n']])).flatten) =
      (lines.map (fun line => line ++ ['\n'])).flatten := by
  induction lines with
  | nil => rfl
  | cons h t ih =>
    simp only [List.map_cons, List.flatten_cons]
    rw [displayConcat_append, ih, displayConcat_append, lineSpans_displays]
    rfl

theorem splitNl_joinNl (c : List Char) :
    ((splitNl c).map (fun line => line ++ ['\n'])).flatten = c ++ ['\n'] := by
  induction c with
  | nil => rfl
  | cons ch rest ih =>
    rw [splitNl]
    by_cases hc : ch = '\n'
    · rw [if_pos hc]
      subst hc
      simp only [List.map_cons, List.flatten_cons, List.nil_append]
      rw [ih]
      rfl
    · rw [if_neg hc]
      cases hs : splitNl rest with
      | nil => exact absurd hs (splitNl_ne_nil rest)
      | cons hh tt =>
        rw [hs] at ih
        simp only [List.map_cons, List.flatten_cons, List.cons_append,
          List.append_assoc] at ih ⊢
        rw [ih]

/-- Claim C2 counterexample: the spans of make_rich concatenate to the input
followed by a trailing newline, not to the input itself, because a newline
span is appended after every line including the last. -/
theorem make_rich_roundtrip_cex :
    displayConcat (make_rich "abc".toList) = "abc\n".toList ∧
    displayConcat (make_rich "abc".toList) ≠ "abc".toList := by
  refine ⟨by decide, by decide⟩

/-- Claim C2 as amended: for every input text, concatenating the display text
of the spans produced by make_rich in emission order reproduces the original
input text followed by one trailing newline (equivalently, every input line
followed by a newline, in order). -/
theorem make_rich_displays (content : List Char) :
    displayConcat (make_rich content) = content ++ ['\n'] := by
  unfold make_rich
  rw [displayConcat_lines, splitNl_joinNl]

theorem takeWhile_all_append (p : Char → Bool) :
    ∀ (body a : List Char), (∀ c, c ∈ body → p c = true) →
      (∀ c, a.head? = some c → p c = false) → (body ++ a).takeWhile p = body := by
  intro body
  induction body with
  | nil =>
    intro a _ ha
    cases a with
    | nil => rfl
    | cons d t =>
      rw [List.nil_append, List.takeWhile_cons, if_neg]
      rw [ha d rfl]
      simp
  | cons c rest ih =>
    intro a hbody ha
    rw [List.cons_append, List.takeWhile_cons, if_pos (hbody c (List.mem_cons_self c rest))]
    rw [ih a (fun x hx => hbody x (List.mem_cons_of_mem c hx)) ha]

theorem matchTagAt_token (body a : List Char) (hne : body ≠ [])
    (hall : ∀ c, c ∈ body → isHashBodyChar c = true)
    (hstop : ∀ c, a.head? = some c → isHashBodyChar c = false) :
    matchTagAt ('#' :: (body ++ a)) = some ('#' :: body) := by
  rw [matchTagAt, if_pos rfl, takeWhile_all_append isHashBodyChar body a hall hstop,
    if_neg hne]

theorem isHashBodyChar_not_space (c : Char) (h : isHashBodyChar c = true) :
    isSpaceB c = false := by
  by_contra hs
  simp only [Bool.not_eq_false] at hs
  simp only [isSpaceB, Bool.or_eq_true, decide_eq_true_eq] at hs
  rcases hs with ((((h1 | h1) | h1) | h1) | h1) | h1 <;> (subst h1; exact absurd h (by decide))

theorem tag_token_mem_split :
    ∀ fuel l b body a, l.length ≤ fuel → l = b ++ ('#' :: (body ++ a)) → body ≠ [] →
      (∀ c, c ∈ body → isHashBodyChar c = true) →
      (∀ c, a.head? = some c → isHashBodyChar c = false) →
      ('#' :: body) ∈ tagSplitFuel fuel l := by
  intro fuel
  induction fuel with
  | zero =>
    intro l b body a hl hdec _ _ _
    have hnil : l = [] := List.length_eq_zero.mp (Nat.le_zero.mp hl)
    subst hnil
    have := congrArg List.length hdec
    simp [List.length_append] at this
    omega
  | succ fuel ih =>
    intro l b body a hl hdec hne hall hstop
    have htok : matchTagAt ('#' :: (body ++ a)) = some ('#' :: body) :=
      matchTagAt_token body a hne hall hstop
    rw [tagSplitFuel]
    cases hf : findFirstTag l with
    | none =>
      exfalso
      have hnone := findFirstBy_none matchTagAt rfl l hf b ('#' :: (body ++ a)) hdec
      rw [htok] at hnone
      exact absurd hnone (by simp)
    | some bma =>
      obtain ⟨b0, m0, a0⟩ := bma
      show ('#' :: body) ∈ (b0 :: m0 :: tagSplitFuel fuel a0)
      obtain ⟨hdec0, hne0, hmat0⟩ :=
        findFirstBy_decomp matchTagAt matchTagAt_decomp l b0 m0 a0 hf
      have hm0len : 1 ≤ m0.length := by
        cases m0 with
        | nil => exact absurd rfl hne0
        | cons _ _ => simp
      rcases Nat.lt_trichotomy b.length b0.length with hlt | heq | hgt
      · exfalso
        have hnone := findFirstBy_leftmost matchTagAt l b0 m0 a0 hf b
          ('#' :: (body ++ a)) hdec hlt
        rw [htok] at hnone
        exact absurd hnone (by simp)
      · have hpair : b = b0 ∧ ('#' :: (body ++ a)) = m0 ++ a0 := by
          apply List.append_inj
          · rw [← hdec, hdec0]
            simp [List.append_assoc]
          · exact heq
        obtain ⟨_, hrest⟩ := hpair
        have hsome : matchTagAt (m0 ++ a0) = some ('#' :: body) := by
          rw [← hrest]
          exact htok
        rw [hmat0] at hsome
        have hm0 : m0 = '#' :: body := Option.some.inj hsome
        rw [hm0]
        exact List.mem_cons_of_mem _ (List.mem_cons_self _ _)
      · obtain ⟨body0, hm0shape, _, hbody0all, _⟩ :=
          matchTagAt_some_decomp (m0 ++ a0) m0 hmat0
        have hassoc : l = (b0 ++ m0) ++ a0 := by
          rw [hdec0, List.append_assoc]
        have hkey : b0.length + m0.length ≤ b.length := by
          by_contra hcon
          push_neg at hcon
          have hposb : l[b.length]? = some '#' := by
            rw [hdec, List.getElem?_append_right (le_refl b.length)]
            simp
          have hposm : l[b.length]? = m0[b.length - b0.length]? := by
            rw [hdec0, List.append_assoc] at hposb ⊢
            rw [List.getElem?_append_right (Nat.le_of_lt hgt)]
            rw [List.getElem?_append, if_pos (by omega)]
          have hidx : m0[b.length - b0.length]? = some '#' := by
            rw [← hposm]
            exact hposb
          have hi1 : 1 ≤ b.length - b0.length := by omega
          have hbody0 : body0[b.length - b0.length - 1]? = some '#' := by
            rw [hm0shape] at hidx
            obtain ⟨j, hj⟩ : ∃ j, b.length - b0.length = j + 1 :=
              ⟨b.length - b0.length - 1, by omega⟩
            rw [hj] at hidx
            simp only [List.getElem?_cons_succ] at hidx
            rw [show b.length - b0.length - 1 = j by omega]
            exact hidx
          have hmem : '#' ∈ body0 := List.getElem?_mem hbody0
          have := hbody0all '#' hmem
          exact absurd this (by decide)
        have hdrop0 : a0 = l.drop (b0.length + m0.length) := by
          rw [hassoc, show b0.length + m0.length = (b0 ++ m0).length by
            simp [List.length_append], List.drop_left]
        have hdrop2 : l.drop (b0.length + m0.length) =
            b.drop (b0.length + m0.length) ++ ('#' :: (body ++ a)) := by
          rw [hdec]
          exact List.drop_append_of_le_length hkey
        have ha0 : a0 = b.drop (b0.length + m0.length) ++ ('#' :: (body ++ a)) := by
          rw [hdrop0, hdrop2]
        have ha0len : a0.length ≤ fuel := by
          have := congrArg List.length hassoc
          simp only [List.length_append] at this
          omega
        have hmem := ih a0 (b.drop (b0.length + m0.length)) body a ha0len ha0 hne hall hstop
        exact List.mem_cons_of_mem _ (List.mem_cons_of_mem _ hmem)

/-- Claim C4 counterexample: the hashtag pattern excludes the underscore, so
the token following the hash sign in the input stops at the underscore: the
input becomes an empty text span, a hashtag span for the part before the
underscore, a plain text span for the rest, and the newline span; no span
displays the full token with the underscore. -/
theorem hashtag_underscore_cex :
    make_rich "#foo_bar".toList =
      [Span.text [], Span.tag "#foo".toList "foo".toList, Span.text "_bar".toList,
        Span.text ['\n']] ∧
    Span.tag "#foo_bar".toList "foo_bar".toList ∉ make_rich "#foo_bar".toList := by
  refine ⟨by decide, by decide⟩

/-- Claim C4 as amended: every maximal token consisting of a hash sign
followed by one or more word characters other than underscore (on the ASCII
range: letters and digits) occurring in a scanned segment becomes a hashtag
span whose display is the full token including the hash sign and whose tag
name is the token without the leading hash sign (trimming it is a no-op);
the underscore ends a token, so one hash sign followed by letters, an
underscore and more letters yields a hashtag span only for the part before
the underscore. -/
theorem hashtag_token_emits_tag_span (b body a : List Char)
    (h : isMaxHashTokenSplit b body a) :
    Span.tag ('#' :: body) body ∈ emitTagSplit (b ++ ('#' :: (body ++ a))) := by
  obtain ⟨hne, hall, hstop⟩ := h
  have hall' : ∀ c, c ∈ body → isHashBodyChar c = true := by
    intro c hc
    exact (List.all_eq_true.mp hall) c hc
  have hmem := tag_token_mem_split (b ++ ('#' :: (body ++ a))).length
    (b ++ ('#' :: (body ++ a))) b body a le_rfl rfl hne hall' hstop
  have hspan : pieceSpan ('#' :: body) = Span.tag ('#' :: body) body := by
    unfold pieceSpan
    rw [if_pos (show ('#' :: body).head? = some '#' from rfl)]
    have hstrip : strip body = body := by
      apply strip_of_all_nonspace
      intro c hc
      exact isHashBodyChar_not_space c (hall' c hc)
    rw [show ('#' :: body).drop 1 = body from rfl, hstrip]
  rw [← hspan]
  exact List.mem_map_of_mem pieceSpan hmem

theorem hashtag_token_emits_tag_span_witness :
    Span.tag "#news".toList "news".toList ∈ emitTagSplit "say #news now".toList := by
  have h := hashtag_token_emits_tag_span "say ".toList "news".toList " now".toList
    ⟨by decide, by decide, by
      intro c hc
      have hc' : c = ' ' := by
        have : (" now".toList.head? = some ' ') := rfl
        rw [this] at hc
        exact (Option.some.inj hc).symm
      subst hc'
      decide⟩
  have heq : "say ".toList ++ ('#' :: ("news".toList ++ " now".toList)) =
      "say #news now".toList := by decide
  rw [heq] at h
  exact h

/-! ## Truncator lemmas -/

theorem phrasesOf_stripped (n : List Char) :
    ∀ st, st ∈ phrasesOf n → strip st.2 = st.2 ∧ st.2 ≠ [] := by
  intro st hst
  unfold phrasesOf at hst
  rw [List.mem_filterMap] at hst
  obtain ⟨sm, _, hmap⟩ := hst
  by_cases h : strip sm.2 = []
  · rw [if_pos h] at hmap
    exact absurd hmap (by simp)
  · rw [if_neg h] at hmap
    have heq := Option.some.inj hmap
    rw [← heq]
    exact ⟨strip_strip sm.2, h⟩

theorem dropLoopFuel_result :
    ∀ fuel sel tl, sel ≠ [] → sel.length = fuel →
      (dropLoopFuel fuel sel tl).length ≤ tl ∨
        ∃ p, p ∈ sel ∧ dropLoopFuel fuel sel tl = strip p := by
  intro fuel
  induction fuel with
  | zero =>
    intro sel tl hne hlen
    exact absurd (List.length_eq_zero.mp hlen) hne
  | succ fuel ih =>
    intro sel tl hne hlen
    simp only [dropLoopFuel]
    by_cases hc : 1 < sel.length ∧ tl < (strip (joinSp sel)).length
    · rw [if_pos hc]
      have hlen' : sel.dropLast.length = fuel := by
        rw [List.length_dropLast]
        omega
      have hdne : sel.dropLast ≠ [] := by
        intro h
        have := congrArg List.length h
        rw [List.length_dropLast] at this
        simp at this
        omega
      rcases ih sel.dropLast tl hdne hlen' with h | ⟨p, hp, he⟩
      · exact Or.inl h
      · exact Or.inr ⟨p, List.dropLast_subset sel hp, he⟩
    · rw [if_neg hc]
      by_cases h1 : 1 < sel.length
      · have h2 : (strip (joinSp sel)).length ≤ tl := by
          by_contra h3
          exact hc ⟨h1, by omega⟩
        exact Or.inl h2
      · have hone : sel.length = 1 := by
          have : 1 ≤ sel.length := by
            cases sel with
            | nil => exact absurd rfl hne
            | cons _ _ => simp
          omega
        obtain ⟨p, hp⟩ : ∃ p, sel = [p] := by
          cases sel with
          | nil => exact absurd rfl hne
          | cons q t =>
            cases t with
            | nil => exact ⟨q, rfl⟩
            | cons _ _ => simp at hone
        subst hp
        exact Or.inr ⟨p, List.mem_cons_self p [], rfl⟩

theorem selectedPhrases_sub (phrases : List (Nat × List Char)) (psl : Nat) :
    ∀ p, p ∈ selectedPhrases phrases psl → ∃ st, st ∈ phrases ∧ st.2 = p := by
  intro p hp
  unfold selectedPhrases at hp
  rw [List.mem_map] at hp
  obtain ⟨st, hst, hval⟩ := hp
  exact ⟨st, List.mem_of_mem_filter hst, hval⟩

/-- Claim C1: for every non-empty input text and limits with the total limit
at least the phrase start limit (both non-negative), the result of
trim_link_description either has length at most the total limit or is exactly
one phrase of the normalized input; the while loop drops trailing phrases but
never splits a phrase. -/
theorem trim_limit_or_single_phrase (text : List Char) (psl tl : Nat)
    (hne : text ≠ []) (hle : psl ≤ tl) :
    (trim_link_description text psl tl).length ≤ tl ∨
      ∃ st, st ∈ phrasesOf (strip (collapseWs text)) ∧
        trim_link_description text psl tl = st.2 := by
  have hslice : (rstrip ((strip (collapseWs text)).take psl)).length ≤ tl := by
    calc (rstrip ((strip (collapseWs text)).take psl)).length
        ≤ ((strip (collapseWs text)).take psl).length := rstrip_length_le _
      _ ≤ psl := by
          rw [List.length_take]
          omega
      _ ≤ tl := hle
  simp only [trim_link_description]
  rw [if_neg hne]
  by_cases hn : strip (collapseWs text) = []
  · rw [if_pos hn]
    left
    rw [hn]
    simp
  · rw [if_neg hn]
    by_cases hp : phrasesOf (strip (collapseWs text)) = []
    · rw [if_pos hp]
      exact Or.inl hslice
    · rw [if_neg hp]
      by_cases hs : selectedPhrases (phrasesOf (strip (collapseWs text))) psl = []
      · rw [if_pos hs]
        exact Or.inl hslice
      · rw [if_neg hs]
        rcases dropLoopFuel_result
            (selectedPhrases (phrasesOf (strip (collapseWs text))) psl).length
            (selectedPhrases (phrasesOf (strip (collapseWs text))) psl) tl hs rfl with
          h | ⟨p, hpmem, he⟩
        · exact Or.inl h
        · right
          obtain ⟨st, hst, hval⟩ :=
            selectedPhrases_sub (phrasesOf (strip (collapseWs text))) psl p hpmem
          refine ⟨st, hst, ?_⟩
          show dropLoop _ tl = st.2
          unfold dropLoop
          rw [he, ← hval]
          exact (phrasesOf_stripped _ st hst).1

theorem trim_limit_or_single_phrase_witness :
    (trim_link_description "Hi. Yo.".toList 0 0).length ≤ 0 ∨
      ∃ st, st ∈ phrasesOf (strip (collapseWs "Hi. Yo.".toList)) ∧
        trim_link_description "Hi. Yo.".toList 0 0 = st.2 :=
  trim_limit_or_single_phrase "Hi. Yo.".toList 0 0 (by decide) (by decide)

/-! ## Idempotence: counterexample and sentence-normal form -/

/-- Claim C3 counterexample: trim_link_description is not idempotent.  On the
input with three sentences not separated by spaces and limits 6 and 100, the
first application selects all three phrases (offsets 0, 3, 6) and rejoins them
with spaces; in the rejoined text the third phrase match starts at offset 7,
beyond the phrase start limit 6, so the second application drops it. -/
theorem trim_not_idempotent_cex :
    trim_link_description "Aa.Bb.Cc.".toList 6 100 = "Aa. Bb. Cc.".toList ∧
    trim_link_description (trim_link_description "Aa.Bb.Cc.".toList 6 100) 6 100 =
      "Aa. Bb.".toList ∧
    trim_link_description (trim_link_description "Aa.Bb.Cc.".toList 6 100) 6 100 ≠
      trim_link_description "Aa.Bb.Cc.".toList 6 100 := by
  refine ⟨by decide, by decide, by decide⟩

theorem collapseWs_head (d : Char) (rest : List Char) (hd : isSpaceB d = false) :
    (collapseWs (d :: rest)).head? = some d := by
  cases rest with
  | nil =>
    rw [collapseWs, if_neg (by rw [hd]; simp)]
    rfl
  | cons e rest' =>
    rw [collapseWs, if_neg (by rw [hd]; simp)]
    rfl

theorem collapseWs_facts : ∀ text : List Char,
    (∀ c, c ∈ collapseWs text → isSpaceB c = true → c = ' ') ∧
    (collapseWs text).Chain' (fun x y => ¬(isSpaceB x = true ∧ isSpaceB y = true)) := by
  intro text
  induction text with
  | nil => exact ⟨by intro c hc; simp [collapseWs] at hc, by simp [collapseWs]⟩
  | cons c rest ih =>
    cases rest with
    | nil =>
      by_cases hc : isSpaceB c = true
      · rw [show collapseWs [c] = [' '] by rw [collapseWs, if_pos hc]]
        constructor
        · intro x hx _
          simpa using hx
        · simp
      · rw [show collapseWs [c] = [c] by
          rw [collapseWs, if_neg (by rw [Bool.not_eq_true] at hc; rw [hc]; simp)]]
        constructor
        · intro x hx hs
          rw [List.mem_singleton] at hx
          subst hx
          exact absurd hs hc
        · simp
    | cons d rest' =>
      obtain ⟨ihm, ihc⟩ := ih
      by_cases hc : isSpaceB c = true
      · by_cases hd : isSpaceB d = true
        · rw [show collapseWs (c :: d :: rest') = collapseWs (d :: rest') by
            rw [collapseWs, if_pos hc, if_pos hd]]
          exact ⟨ihm, ihc⟩
        · rw [Bool.not_eq_true] at hd
          rw [show collapseWs (c :: d :: rest') = ' ' :: collapseWs (d :: rest') by
            rw [collapseWs, if_pos hc, if_neg (by rw [hd]; simp)]]
          constructor
          · intro x hx hs
            rcases List.mem_cons.mp hx with h | h
            · exact h
            · exact ihm x h hs
          · rw [List.chain'_cons']
            refine ⟨?_, ihc⟩
            intro y hy
            rw [collapseWs_head d rest' hd] at hy
            have hyd : y = d := by simpa using hy.symm
            subst hyd
            intro hpair
            rw [hd] at hpair
            exact absurd hpair.2 (by simp)
      · rw [Bool.not_eq_true] at hc
        rw [show collapseWs (c :: d :: rest') = c :: collapseWs (d :: rest') by
          rw [collapseWs, if_neg (by rw [hc]; simp)]]
        constructor
        · intro x hx hs
          rcases List.mem_cons.mp hx with h | h
          · subst h
            exact absurd hs (by rw [hc]; simp)
          · exact ihm x h hs
        · rw [List.chain'_cons']
          refine ⟨?_, ihc⟩
          intro y _
          intro hpair
          rw [hc] at hpair
          exact absurd hpair.1 (by simp)

theorem collapseWs_fix : ∀ l : List Char,
    (∀ c, c ∈ l → isSpaceB c = true → c = ' ') →
    l.Chain' (fun x y => ¬(isSpaceB x = true ∧ isSpaceB y = true)) →
    collapseWs l = l := by
  intro l
  induction l with
  | nil => intro _ _; rfl
  | cons c rest ih =>
    intro hmem hchain
    cases rest with
    | nil =>
      by_cases hc : isSpaceB c = true
      · rw [collapseWs, if_pos hc]
        rw [hmem c (List.mem_cons_self c []) hc]
      · rw [collapseWs, if_neg hc]
    | cons d rest' =>
      have hchain' : (d :: rest').Chain' (fun x y => ¬(isSpaceB x = true ∧ isSpaceB y = true)) :=
        (List.chain'_cons.mp hchain).2
      have hpair : ¬(isSpaceB c = true ∧ isSpaceB d = true) := (List.chain'_cons.mp hchain).1
      have hmem' : ∀ x, x ∈ d :: rest' → isSpaceB x = true → x = ' ' := by
        intro x hx hs
        exact hmem x (List.mem_cons_of_mem c hx) hs
      by_cases hc : isSpaceB c = true
      · have hd : isSpaceB d = false := by
          by_contra hdc
          rw [Bool.not_eq_false] at hdc
          exact hpair ⟨hc, hdc⟩
        rw [collapseWs, if_pos hc, if_neg (by rw [hd]; simp)]
        rw [ih hmem' hchain']
        rw [hmem c (List.mem_cons_self c _) hc]
      · rw [collapseWs, if_neg hc]
        rw [ih hmem' hchain']

theorem strip_subset (l : List Char) : ∀ c, c ∈ strip l → c ∈ l := by
  intro c hc
  unfold strip rstrip lstrip at hc
  rw [List.mem_reverse] at hc
  have h1 := (List.dropWhile_sublist (l := (l.dropWhile isSpaceB).reverse) isSpaceB).mem hc
  rw [List.mem_reverse] at h1
  exact (List.dropWhile_sublist isSpaceB).mem h1

theorem chain'_strip (R : Char → Char → Prop) (l : List Char) (h : l.Chain' R) :
    (strip l).Chain' R := by
  have h1 : l = l.takeWhile isSpaceB ++ lstrip l :=
    (List.takeWhile_append_dropWhile isSpaceB l).symm
  have h2 : lstrip l = strip l ++ ((lstrip l).reverse.takeWhile isSpaceB).reverse :=
    rstrip_prefix (lstrip l)
  rw [h1, h2] at h
  exact (List.chain'_append.mp (List.chain'_append.mp h).2.1).1

theorem joinSp_cons₂ (p q : List Char) (rest : List (List Char)) :
    joinSp (p :: q :: rest) = p ++ ' ' :: joinSp (q :: rest) := rfl

theorem joinSp_ne_nil (q : List Char) (rest : List (List Char)) (hq : q ≠ []) :
    joinSp (q :: rest) ≠ [] := by
  cases rest with
  | nil => exact hq
  | cons r t =>
    rw [joinSp_cons₂]
    intro h
    rw [List.append_eq_nil] at h
    exact hq h.1

theorem joinSp_head (q : List Char) (rest : List (List Char)) (hq : q ≠ []) :
    (joinSp (q :: rest)).head? = q.head? := by
  cases rest with
  | nil => rfl
  | cons r t =>
    rw [joinSp_cons₂]
    cases q with
    | nil => exact absurd rfl hq
    | cons c q' => rfl

theorem joinSp_getLast :
    ∀ (rest : List (List Char)) (q : List Char), q ≠ [] → (∀ p, p ∈ q :: rest → p ≠ []) →
      ∃ p, p ∈ q :: rest ∧ (joinSp (q :: rest)).getLast? = p.getLast? := by
  intro rest
  induction rest with
  | nil =>
    intro q hq _
    exact ⟨q, List.mem_cons_self q [], rfl⟩
  | cons r t ih =>
    intro q hq hall
    obtain ⟨p, hp, hlast⟩ := ih r (hall r (List.mem_cons_of_mem q (List.mem_cons_self r t)))
      (by
        intro p hp
        rcases List.mem_cons.mp hp with h | h
        · subst h; exact hall p (List.mem_cons_of_mem q (List.mem_cons_self p t))
        · exact hall p (List.mem_cons_of_mem q (List.mem_cons_of_mem r h)))
    refine ⟨p, List.mem_cons_of_mem q hp, ?_⟩
    rw [joinSp_cons₂]
    rw [List.getLast?_append_of_ne_nil]
    · show (' ' :: joinSp (r :: t)).getLast? = p.getLast?
      rw [List.getLast?_cons]
      rw [← hlast]
      have hne : joinSp (r :: t) ≠ [] :=
        joinSp_ne_nil r t (hall r (List.mem_cons_of_mem q (List.mem_cons_self r t)))
      cases hj : joinSp (r :: t) with
      | nil => exact absurd hj hne
      | cons x xs => simp [List.getLastD_eq_getLast?, List.getLast?_cons]
    · simp

theorem joinSp_take_append :
    ∀ (qs : List (List Char)) (j : Nat), 1 ≤ j → j < qs.length →
      joinSp qs = joinSp (qs.take j) ++ ' ' :: joinSp (qs.drop j) := by
  intro qs
  induction qs with
  | nil => intro j _ h; simp at h
  | cons q rest ih =>
    intro j hj hlt
    obtain ⟨j', rfl⟩ : ∃ m, j = m + 1 := ⟨j - 1, by omega⟩
    rw [List.take_succ_cons, List.drop_succ_cons]
    by_cases hj0 : j' = 0
    · subst hj0
      simp only [List.take_zero, List.drop_zero]
      have hrest : rest ≠ [] := by
        intro h
        subst h
        simp at hlt
      obtain ⟨r, t, rfl⟩ := List.exists_cons_of_ne_nil hrest
      rfl
    · have hj1 : 1 ≤ j' := by omega
      have hlt' : j' < rest.length := by
        simp only [List.length_cons] at hlt
        omega
      have hrtake : rest.take j' ≠ [] := by
        intro h
        have h2 := congrArg List.length h
        rw [List.length_take] at h2
        simp only [List.length_nil] at h2
        rcases Nat.min_eq_zero_iff.mp h2 with h3 | h3 <;> omega
      obtain ⟨r, t, hrt⟩ : ∃ r t, rest = r :: t := by
        cases rest with
        | nil => simp at hlt'
        | cons r t => exact ⟨r, t, rfl⟩
      obtain ⟨x, y, hxy⟩ : ∃ x y, rest.take j' = x :: y := by
        cases hc : rest.take j' with
        | nil => exact absurd hc hrtake
        | cons x y => exact ⟨x, y, rfl⟩
      rw [hrt] at ih ⊢
      rw [joinSp_cons₂, ih (j' ) hj1 (by rw [hrt] at hlt'; exact hlt')]
      rw [hrt] at hxy
      rw [hxy, joinSp_cons₂]
      simp [List.append_assoc]

theorem midSentence_lastSentence (q : List Char) (h : midSentence q = true) :
    lastSentence q = true := by
  unfold midSentence at h
  unfold lastSentence
  simp only [Bool.and_eq_true] at h ⊢
  exact ⟨⟨⟨⟨h.1.1.1.1.1, h.1.1.1.1.2⟩, h.1.1.1.2⟩, h.1.1.2⟩, h.1.2⟩

theorem goodSentences_cons (q : List Char) (rest : List (List Char))
    (h : goodSentences (q :: rest) = true) :
    lastSentence q = true ∧ goodSentences rest = true ∧
      (rest ≠ [] → midSentence q = true) := by
  cases rest with
  | nil =>
    rw [show goodSentences [q] = lastSentence q from rfl] at h
    exact ⟨h, rfl, by intro hc; exact absurd rfl hc⟩
  | cons r t =>
    rw [show goodSentences (q :: r :: t) = (midSentence q && goodSentences (r :: t)) from rfl,
      Bool.and_eq_true] at h
    exact ⟨midSentence_lastSentence q h.1, h.2, fun _ => h.1⟩

theorem goodSentences_all_last :
    ∀ qs : List (List Char), goodSentences qs = true → ∀ q, q ∈ qs → lastSentence q = true := by
  intro qs
  induction qs with
  | nil => intro _ q hq; simp at hq
  | cons p rest ih =>
    intro h q hq
    obtain ⟨hlast, hrest, _⟩ := goodSentences_cons p rest h
    rcases List.mem_cons.mp hq with h1 | h1
    · subst h1; exact hlast
    · exact ih hrest q h1

theorem goodSentences_take :
    ∀ (qs : List (List Char)) (j : Nat), goodSentences qs = true →
      goodSentences (qs.take j) = true := by
  intro qs
  induction qs with
  | nil => intro j _; simp [goodSentences]
  | cons q rest ih =>
    intro j h
    obtain ⟨hlast, hrest, hmid⟩ := goodSentences_cons q rest h
    cases j with
    | zero => rfl
    | succ j' =>
      rw [List.take_succ_cons]
      cases hc : rest.take j' with
      | nil => rw [show goodSentences [q] = lastSentence q from rfl]; exact hlast
      | cons x y =>
        have hrne : rest ≠ [] := by
          intro hr
          subst hr
          simp at hc
        rw [show goodSentences (q :: x :: y) = (midSentence q && goodSentences (x :: y))
          from rfl, Bool.and_eq_true]
        refine ⟨hmid hrne, ?_⟩
        rw [← hc]
        exact ih j' hrest

theorem lastSentence_facts (q : List Char) (h : lastSentence q = true) :
    q ≠ [] ∧ (∀ c, q.head? = some c → isTermCh c = false ∧ isSpaceB c = false) ∧
      (∀ c, q.getLast? = some c → isSpaceB c = false) ∧
      (∀ c, c ∈ q.dropLast → isTermCh c = false) := by
  unfold lastSentence at h
  simp only [Bool.and_eq_true] at h
  obtain ⟨⟨⟨⟨hne, hh1⟩, hh2⟩, hl⟩, hall⟩ := h
  have hqne : q ≠ [] := by
    intro hq
    rw [hq] at hne
    simp at hne
  refine ⟨hqne, ?_, ?_, ?_⟩
  · intro c hc
    obtain ⟨x, t, rfl⟩ := List.exists_cons_of_ne_nil hqne
    have hcx : c = x := by
      simp only [List.head?_cons, Option.some.injEq] at hc
      exact hc.symm
    subst hcx
    constructor
    · simpa using hh1
    · simpa using hh2
  · intro c hc
    rw [List.getLast?_eq_getLast q hqne] at hc
    have hcg : c = q.getLast hqne := (Option.some.inj hc).symm
    subst hcg
    have : q.getLastD ' ' = q.getLast hqne := by
      rw [List.getLastD_eq_getLast?, List.getLast?_eq_getLast q hqne]
      rfl
    rw [this] at hl
    simpa using hl
  · intro c hc
    have := List.all_eq_true.mp hall c hc
    simpa using this

theorem sentence_term_decomp (q : List Char) (h : lastSentence q = true)
    (hterm : isTermCh (q.getLastD ' ') = true) :
    ∃ c w t, q = (c :: w) ++ [t] ∧ isTermCh c = false ∧
      (∀ x, x ∈ c :: w → isTermCh x = false) ∧ isTermCh t = true := by
  obtain ⟨hqne, hhead, _, hdrop⟩ := lastSentence_facts q h
  have hq2 : 2 ≤ q.length := by
    by_contra hcon
    push_neg at hcon
    obtain ⟨x, t, rfl⟩ := List.exists_cons_of_ne_nil hqne
    have ht : t = [] := by
      cases t with
      | nil => rfl
      | cons _ _ => exfalso; simp only [List.length_cons] at hcon; omega
    subst ht
    have h1 := (hhead x rfl).1
    have h2 : ([x].getLastD ' ') = x := rfl
    rw [h2] at hterm
    rw [hterm] at h1
    simp at h1
  have hdecomp : q.dropLast ++ [q.getLast hqne] = q := List.dropLast_append_getLast hqne
  have hdne : q.dropLast ≠ [] := by
    intro hd
    have := congrArg List.length hdecomp
    rw [hd] at this
    simp at this
    omega
  obtain ⟨c, w, hcw⟩ := List.exists_cons_of_ne_nil hdne
  refine ⟨c, w, q.getLast hqne, ?_, ?_, ?_, ?_⟩
  · rw [← hcw, hdecomp]
  · have hch : q.head? = some c := by
      rw [← hdecomp, hcw]
      rfl
    exact (hhead c hch).1
  · intro x hx
    rw [← hcw] at hx
    exact hdrop x hx
  · have : q.getLastD ' ' = q.getLast hqne := by
      rw [List.getLastD_eq_getLast?, List.getLast?_eq_getLast q hqne]
      rfl
    rw [← this]
    exact hterm

theorem sentence_nonterm_decomp (q : List Char) (h : lastSentence q = true)
    (hterm : isTermCh (q.getLastD ' ') = false) :
    q ≠ [] ∧ ∀ x, x ∈ q → isTermCh x = false := by
  obtain ⟨hqne, _, _, hdrop⟩ := lastSentence_facts q h
  refine ⟨hqne, ?_⟩
  intro x hx
  have hdecomp : q.dropLast ++ [q.getLast hqne] = q := List.dropLast_append_getLast hqne
  rw [← hdecomp] at hx
  rcases List.mem_append.mp hx with h1 | h1
  · exact hdrop x h1
  · have hxg : x = q.getLast hqne := by simpa using h1
    subst hxg
    have : q.getLastD ' ' = q.getLast hqne := by
      rw [List.getLastD_eq_getLast?, List.getLast?_eq_getLast q hqne]
      rfl
    rw [← this]
    exact hterm

theorem phraseScanAux_nil_some (pos : Nat) (sm : Nat × List Char) :
    phraseScanAux [] pos (some sm) = [sm] := rfl

theorem phraseScanAux_start (c : Char) (rest : List Char) (pos : Nat)
    (hc : isTermCh c = false) :
    phraseScanAux (c :: rest) pos none = phraseScanAux rest (pos + 1) (some (pos, [c])) := by
  rw [phraseScanAux, if_neg (by rw [hc]; simp)]

theorem phraseScanAux_term (t : Char) (rest : List Char) (pos s : Nat)
    (acc : List Char) (ht : isTermCh t = true) :
    phraseScanAux (t :: rest) pos (some (s, acc)) =
      (s, acc ++ [t]) :: phraseScanAux rest (pos + 1) none := by
  rw [phraseScanAux, if_pos ht]

theorem phraseScanAux_run (w : List Char) :
    ∀ rest pos s acc, (∀ c, c ∈ w → isTermCh c = false) →
      phraseScanAux (w ++ rest) pos (some (s, acc)) =
        phraseScanAux rest (pos + w.length) (some (s, acc ++ w)) := by
  induction w with
  | nil =>
    intro rest pos s acc _
    simp
  | cons c w' ih =>
    intro rest pos s acc hw
    rw [List.cons_append, phraseScanAux,
      if_neg (by rw [hw c (List.mem_cons_self c w')]; simp)]
    show phraseScanAux (w' ++ rest) (pos + 1) (some (s, acc ++ [c])) = _
    rw [ih rest (pos + 1) s (acc ++ [c]) (fun x hx => hw x (List.mem_cons_of_mem c hx))]
    rw [show pos + 1 + w'.length = pos + (c :: w').length by simp; omega]
    rw [show (acc ++ [c]) ++ w' = acc ++ (c :: w') by simp]

theorem mid_term (q : List Char) (h : midSentence q = true) :
    isTermCh (q.getLastD ' ') = true := by
  unfold midSentence at h
  simp only [Bool.and_eq_true] at h
  exact h.2

theorem scan_tail (qs : List (List Char)) :
    ∀ pos, goodSentences qs = true → qs ≠ [] →
      phraseScanAux (' ' :: joinSp qs) pos none = matchSpecTail qs pos := by
  induction qs with
  | nil => intro pos _ h; exact absurd rfl h
  | cons q rest ih =>
    intro pos hgs _
    obtain ⟨hlast, hrest, hmid⟩ := goodSentences_cons q rest hgs
    rw [phraseScanAux_start ' ' _ pos (by decide)]
    cases rest with
    | nil =>
      show phraseScanAux (joinSp [q]) (pos + 1) (some (pos, [' '])) = _
      rw [show joinSp [q] = q from rfl]
      by_cases hterm : isTermCh (q.getLastD ' ') = true
      · obtain ⟨c, w, t, hq, _, hallnt, ht⟩ := sentence_term_decomp q hlast hterm
        rw [hq]
        rw [phraseScanAux_run (c :: w) [t] (pos + 1) pos [' '] hallnt]
        rw [phraseScanAux_term t [] (pos + 1 + (c :: w).length) pos ([' '] ++ (c :: w)) ht]
        show ((pos, ([' '] ++ (c :: w)) ++ [t]) :: phraseScanAux [] _ none) =
          matchSpecTail [(c :: w) ++ [t]] pos
        rw [show phraseScanAux [] (pos + 1 + (c :: w).length + 1) none = [] from rfl]
        rfl
      · rw [Bool.not_eq_true] at hterm
        obtain ⟨hqne, hallnt⟩ := sentence_nonterm_decomp q hlast hterm
        have hrun := phraseScanAux_run q [] (pos + 1) pos [' '] hallnt
        rw [List.append_nil] at hrun
        rw [hrun, phraseScanAux_nil_some]
        show [(pos, [' '] ++ q)] = matchSpecTail [q] pos
        rfl
    | cons r t' =>
      have hmidq : midSentence q = true := hmid (by simp)
      have hterm : isTermCh (q.getLastD ' ') = true := mid_term q hmidq
      obtain ⟨c, w, tc, hq, _, hallnt, ht⟩ := sentence_term_decomp q hlast hterm
      show phraseScanAux (joinSp (q :: r :: t')) (pos + 1) (some (pos, [' '])) = _
      rw [joinSp_cons₂, hq]
      rw [show ((c :: w) ++ [tc]) ++ ' ' :: joinSp (r :: t') =
        (c :: w) ++ (tc :: ' ' :: joinSp (r :: t')) by simp]
      rw [phraseScanAux_run (c :: w) (tc :: ' ' :: joinSp (r :: t')) (pos + 1) pos [' ']
        hallnt]
      rw [phraseScanAux_term tc (' ' :: joinSp (r :: t')) (pos + 1 + (c :: w).length) pos
        ([' '] ++ (c :: w)) ht]
      rw [ih (pos + 1 + (c :: w).length + 1) hrest (by simp)]
      show ((pos, ([' '] ++ (c :: w)) ++ [tc]) ::
          matchSpecTail (r :: t') (pos + 1 + (c :: w).length + 1)) =
        matchSpecTail (((c :: w) ++ [tc]) :: r :: t') pos
      rw [show matchSpecTail (((c :: w) ++ [tc]) :: r :: t') pos =
        (pos, ' ' :: ((c :: w) ++ [tc])) ::
          matchSpecTail (r :: t') (pos + 1 + ((c :: w) ++ [tc]).length) from rfl]
      rw [show pos + 1 + (c :: w).length + 1 = pos + 1 + ((c :: w) ++ [tc]).length by
        simp only [List.length_append, List.length_cons, List.length_nil]
        omega]
      rfl

theorem scan_head (qs : List (List Char)) (pos : Nat) (hgs : goodSentences qs = true)
    (hne : qs ≠ []) : phraseScanAux (joinSp qs) pos none = matchSpec qs pos := by
  obtain ⟨q, rest, rfl⟩ := List.exists_cons_of_ne_nil hne
  obtain ⟨hlast, hrest, hmid⟩ := goodSentences_cons q rest hgs
  cases rest with
  | nil =>
    rw [show joinSp [q] = q from rfl]
    by_cases hterm : isTermCh (q.getLastD ' ') = true
    · obtain ⟨c, w, t, hq, hc, hallnt, ht⟩ := sentence_term_decomp q hlast hterm
      rw [hq]
      rw [show ((c :: w) ++ [t] : List Char) = c :: (w ++ [t]) from rfl]
      rw [phraseScanAux_start c _ pos hc]
      rw [phraseScanAux_run w [t] (pos + 1) pos [c]
        (fun x hx => hallnt x (List.mem_cons_of_mem c hx))]
      rw [phraseScanAux_term t [] (pos + 1 + w.length) pos ([c] ++ w) ht]
      show ((pos, ([c] ++ w) ++ [t]) :: phraseScanAux [] _ none) =
        matchSpec [(c :: w) ++ [t]] pos
      rw [show phraseScanAux [] (pos + 1 + w.length + 1) none = [] from rfl]
      rfl
    · rw [Bool.not_eq_true] at hterm
      obtain ⟨hqne, hallnt⟩ := sentence_nonterm_decomp q hlast hterm
      obtain ⟨c, w, hq⟩ := List.exists_cons_of_ne_nil hqne
      rw [hq]
      rw [phraseScanAux_start c _ pos (hallnt c (by rw [hq]; exact List.mem_cons_self c w))]
      have hrun := phraseScanAux_run w [] (pos + 1) pos [c]
        (fun x hx => hallnt x (by rw [hq]; exact List.mem_cons_of_mem c hx))
      rw [List.append_nil] at hrun
      rw [hrun, phraseScanAux_nil_some]
      show [(pos, [c] ++ w)] = matchSpec [c :: w] pos
      rfl
  | cons r t' =>
    have hmidq : midSentence q = true := hmid (by simp)
    have hterm : isTermCh (q.getLastD ' ') = true := mid_term q hmidq
    obtain ⟨c, w, tc, hq, hc, hallnt, ht⟩ := sentence_term_decomp q hlast hterm
    rw [joinSp_cons₂, hq]
    rw [show ((c :: w) ++ [tc]) ++ ' ' :: joinSp (r :: t') =
      c :: (w ++ (tc :: ' ' :: joinSp (r :: t'))) by simp]
    rw [phraseScanAux_start c _ pos hc]
    rw [phraseScanAux_run w (tc :: ' ' :: joinSp (r :: t')) (pos + 1) pos [c]
      (fun x hx => hallnt x (List.mem_cons_of_mem c hx))]
    rw [phraseScanAux_term tc (' ' :: joinSp (r :: t')) (pos + 1 + w.length) pos
      ([c] ++ w) ht]
    rw [scan_tail (r :: t') (pos + 1 + w.length + 1) hrest (by simp)]
    show ((pos, ([c] ++ w) ++ [tc]) ::
        matchSpecTail (r :: t') (pos + 1 + w.length + 1)) =
      matchSpec (((c :: w) ++ [tc]) :: r :: t') pos
    rw [show matchSpec (((c :: w) ++ [tc]) :: r :: t') pos =
      (pos, (c :: w) ++ [tc]) ::
        matchSpecTail (r :: t') (pos + ((c :: w) ++ [tc]).length) from rfl]
    rw [show pos + 1 + w.length + 1 = pos + ((c :: w) ++ [tc]).length by
      simp only [List.length_append, List.length_cons, List.length_nil]
      omega]
    rfl

theorem strip_sentence (q : List Char) (h : lastSentence q = true) : strip q = q := by
  obtain ⟨_, hhead, hlastf, _⟩ := lastSentence_facts q h
  exact strip_fix q (fun c hc => (hhead c hc).2) hlastf

theorem strip_space_sentence (q : List Char) (h : lastSentence q = true) :
    strip (' ' :: q) = q := by
  obtain ⟨_, hhead, hlastf, _⟩ := lastSentence_facts q h
  unfold strip
  have h1 : lstrip (' ' :: q) = q := by
    unfold lstrip
    rw [List.dropWhile_cons, if_pos (by decide)]
    exact lstrip_of_head q (fun c hc => (hhead c hc).2)
  rw [h1]
  exact rstrip_of_getLast q hlastf

theorem phrasesTail_spec (qs : List (List Char)) :
    ∀ pos, (∀ q, q ∈ qs → lastSentence q = true) →
      (matchSpecTail qs pos).filterMap
        (fun sm => if strip sm.2 = [] then none else some (sm.1, strip sm.2)) =
      phraseSpecTail qs pos := by
  induction qs with
  | nil => intro pos _; rfl
  | cons q rest ih =>
    intro pos hall
    have hq := hall q (List.mem_cons_self q rest)
    have hstrip : strip (' ' :: q) = q := strip_space_sentence q hq
    have hqne : q ≠ [] := (lastSentence_facts q hq).1
    show List.filterMap _ ((pos, ' ' :: q) :: matchSpecTail rest (pos + 1 + q.length)) =
      (pos, q) :: phraseSpecTail rest (pos + 1 + q.length)
    rw [List.filterMap_cons]
    have hstep : (if strip ((pos, ' ' :: q) : Nat × List Char).2 = [] then none
        else some ((pos, ' ' :: q).1, strip ((pos, ' ' :: q) : Nat × List Char).2)) =
        some (pos, q) := by
      show (if strip (' ' :: q) = [] then none else some (pos, strip (' ' :: q))) =
        some (pos, q)
      rw [hstrip, if_neg hqne]
    rw [hstep]
    rw [ih (pos + 1 + q.length) (fun x hx => hall x (List.mem_cons_of_mem q hx))]

theorem phrasesOf_joinSp (qs : List (List Char)) (hgs : goodSentences qs = true)
    (hne : qs ≠ []) : phrasesOf (joinSp qs) = phraseSpec qs 0 := by
  unfold phrasesOf findPhraseMatches
  rw [scan_head qs 0 hgs hne]
  obtain ⟨q, rest, rfl⟩ := List.exists_cons_of_ne_nil hne
  have hall := goodSentences_all_last _ hgs
  have hq := hall q (List.mem_cons_self q rest)
  have hstrip : strip q = q := strip_sentence q hq
  have hqne : q ≠ [] := (lastSentence_facts q hq).1
  show List.filterMap _ ((0, q) :: matchSpecTail rest (0 + q.length)) =
    (0, q) :: phraseSpecTail rest (0 + q.length)
  rw [List.filterMap_cons]
  have hstep : (if strip ((0, q) : Nat × List Char).2 = [] then none
      else some (((0, q) : Nat × List Char).1, strip ((0, q) : Nat × List Char).2)) =
      some (0, q) := by
    show (if strip q = [] then none else some (0, strip q)) = some (0, q)
    rw [hstrip, if_neg hqne]
  rw [hstep]
  rw [phrasesTail_spec rest (0 + q.length) (fun x hx => hall x (List.mem_cons_of_mem q hx))]

theorem phraseSpecTail_map_snd (qs : List (List Char)) :
    ∀ pos, (phraseSpecTail qs pos).map (fun st => st.2) = qs := by
  induction qs with
  | nil => intro pos; rfl
  | cons q rest ih =>
    intro pos
    show ((pos, q) :: phraseSpecTail rest (pos + 1 + q.length)).map _ = q :: rest
    rw [List.map_cons, ih (pos + 1 + q.length)]

theorem phraseSpec_map_snd (qs : List (List Char)) (pos : Nat) :
    (phraseSpec qs pos).map (fun st => st.2) = qs := by
  cases qs with
  | nil => rfl
  | cons q rest =>
    show ((pos, q) :: phraseSpecTail rest (pos + q.length)).map _ = q :: rest
    rw [List.map_cons, phraseSpecTail_map_snd rest (pos + q.length)]

theorem phraseSpecTail_take (qs : List (List Char)) :
    ∀ j pos, phraseSpecTail (qs.take j) pos = (phraseSpecTail qs pos).take j := by
  induction qs with
  | nil =>
    intro j pos
    rw [List.take_nil]
    show ([] : List (Nat × List Char)) = ([] : List (Nat × List Char)).take j
    rw [List.take_nil]
  | cons q rest ih =>
    intro j pos
    cases j with
    | zero => rfl
    | succ j' =>
      rw [List.take_succ_cons]
      show (pos, q) :: phraseSpecTail (rest.take j') (pos + 1 + q.length) = _
      rw [show phraseSpecTail (q :: rest) pos =
        (pos, q) :: phraseSpecTail rest (pos + 1 + q.length) from rfl]
      rw [List.take_succ_cons, ih j' (pos + 1 + q.length)]

theorem phraseSpec_take (qs : List (List Char)) (j : Nat) (hj : 1 ≤ j) :
    phraseSpec (qs.take j) 0 = (phraseSpec qs 0).take j := by
  cases qs with
  | nil =>
    rw [List.take_nil]
    show ([] : List (Nat × List Char)) = ([] : List (Nat × List Char)).take j
    rw [List.take_nil]
  | cons q rest =>
    obtain ⟨j', rfl⟩ : ∃ m, j = m + 1 := ⟨j - 1, by omega⟩
    rw [List.take_succ_cons]
    show (0, q) :: phraseSpecTail (rest.take j') (0 + q.length) = _
    rw [show phraseSpec (q :: rest) 0 =
      (0, q) :: phraseSpecTail rest (0 + q.length) from rfl]
    rw [List.take_succ_cons, phraseSpecTail_take rest j' (0 + q.length)]

theorem phraseSpecTail_pos_le (qs : List (List Char)) :
    ∀ pos st, st ∈ phraseSpecTail qs pos → pos ≤ st.1 := by
  induction qs with
  | nil => intro pos st hst; simp [phraseSpecTail] at hst
  | cons q rest ih =>
    intro pos st hst
    rw [show phraseSpecTail (q :: rest) pos =
      (pos, q) :: phraseSpecTail rest (pos + 1 + q.length) from rfl] at hst
    rcases List.mem_cons.mp hst with h | h
    · rw [h]
    · have := ih (pos + 1 + q.length) st h
      omega

theorem selected_tail (a : Nat) (qs : List (List Char)) :
    ∀ pos, ∃ j, j ≤ qs.length ∧
      ((phraseSpecTail qs pos).filter (fun st => decide (st.1 ≤ a))).map (fun st => st.2) =
        qs.take j ∧
      (∀ st, st ∈ (phraseSpecTail qs pos).take j → st.1 ≤ a) := by
  induction qs with
  | nil =>
    intro pos
    exact ⟨0, by simp, rfl, by intro st hst; simp [phraseSpecTail] at hst⟩
  | cons q rest ih =>
    intro pos
    by_cases hpos : pos ≤ a
    · obtain ⟨j, hj, hmap, hle⟩ := ih (pos + 1 + q.length)
      refine ⟨j + 1, by simp; omega, ?_, ?_⟩
      · rw [show phraseSpecTail (q :: rest) pos =
          (pos, q) :: phraseSpecTail rest (pos + 1 + q.length) from rfl]
        rw [List.filter_cons, if_pos (by simpa using hpos)]
        rw [List.map_cons, hmap]
        rfl
      · intro st hst
        rw [show (phraseSpecTail (q :: rest) pos).take (j + 1) =
          (pos, q) :: (phraseSpecTail rest (pos + 1 + q.length)).take j from rfl] at hst
        rcases List.mem_cons.mp hst with h | h
        · rw [h]; exact hpos
        · exact hle st h
    · refine ⟨0, by simp, ?_, by intro st hst; simp at hst⟩
      have hall : ∀ st, st ∈ phraseSpecTail (q :: rest) pos →
          ¬(decide (st.1 ≤ a) = true) := by
        intro st hst
        have h1 := phraseSpecTail_pos_le (q :: rest) pos st hst
        simp only [decide_eq_true_eq]
        omega
      rw [List.filter_eq_nil_iff.mpr hall]
      rfl

theorem selected_head (a : Nat) (qs : List (List Char)) (hne : qs ≠ []) :
    ∃ j, 1 ≤ j ∧ j ≤ qs.length ∧
      selectedPhrases (phraseSpec qs 0) a = qs.take j ∧
      (∀ st, st ∈ (phraseSpec qs 0).take j → st.1 ≤ a) := by
  obtain ⟨q, rest, rfl⟩ := List.exists_cons_of_ne_nil hne
  obtain ⟨j, hj, hmap, hle⟩ := selected_tail a rest (0 + q.length)
  refine ⟨j + 1, by omega, by simp; omega, ?_, ?_⟩
  · unfold selectedPhrases
    rw [show phraseSpec (q :: rest) 0 =
      (0, q) :: phraseSpecTail rest (0 + q.length) from rfl]
    rw [List.filter_cons, if_pos (by simp)]
    rw [List.map_cons, hmap]
    rfl
  · intro st hst
    rw [show (phraseSpec (q :: rest) 0).take (j + 1) =
      (0, q) :: (phraseSpecTail rest (0 + q.length)).take j from rfl] at hst
    rcases List.mem_cons.mp hst with h | h
    · rw [h]; exact Nat.zero_le a
    · exact hle st h

theorem dropLoopFuel_run :
    ∀ fuel sel b, sel ≠ [] → sel.length = fuel →
      ∃ j, 1 ≤ j ∧ j ≤ sel.length ∧
        dropLoopFuel fuel sel b = strip (joinSp (sel.take j)) ∧
        ¬(1 < j ∧ b < (strip (joinSp (sel.take j))).length) := by
  intro fuel
  induction fuel with
  | zero => intro sel b hne hlen; exact absurd (List.length_eq_zero.mp hlen) hne
  | succ fuel ih =>
    intro sel b hne hlen
    simp only [dropLoopFuel]
    by_cases hc : 1 < sel.length ∧ b < (strip (joinSp sel)).length
    · rw [if_pos hc]
      have hdne : sel.dropLast ≠ [] := by
        intro h
        have := congrArg List.length h
        rw [List.length_dropLast] at this
        simp only [List.length_nil] at this
        omega
      obtain ⟨j, hj1, hjle, hres, hpost⟩ := ih sel.dropLast b hdne
        (by rw [List.length_dropLast]; omega)
      rw [List.length_dropLast] at hjle
      have htake : sel.dropLast.take j = sel.take j := by
        rw [List.dropLast_eq_take, List.take_take]
        rw [Nat.min_eq_left hjle]
      refine ⟨j, hj1, by omega, ?_, ?_⟩
      · rw [hres, htake]
      · rw [htake] at hpost
        exact hpost
    · rw [if_neg hc]
      refine ⟨sel.length, ?_, le_rfl, ?_, ?_⟩
      · cases sel with
        | nil => exact absurd rfl hne
        | cons _ _ => simp
      · rw [List.take_length]
      · rw [List.take_length]
        exact hc

theorem strip_joinSp (qs : List (List Char)) (hgs : goodSentences qs = true)
    (hne : qs ≠ []) : strip (joinSp qs) = joinSp qs := by
  obtain ⟨q, rest, rfl⟩ := List.exists_cons_of_ne_nil hne
  have hall := goodSentences_all_last _ hgs
  have hq := hall q (List.mem_cons_self q rest)
  have hqne : q ≠ [] := (lastSentence_facts q hq).1
  apply strip_fix
  · intro c hc
    rw [joinSp_head q rest hqne] at hc
    exact ((lastSentence_facts q hq).2.1 c hc).2
  · intro c hc
    obtain ⟨p, hp, hplast⟩ := joinSp_getLast rest q hqne
      (fun p hp => (lastSentence_facts p (hall p hp)).1)
    rw [hplast] at hc
    exact (lastSentence_facts p (hall p hp)).2.2.1 c hc

theorem normalize_N_fix (text : List Char) :
    strip (collapseWs (strip (collapseWs text))) = strip (collapseWs text) := by
  have hfacts := collapseWs_facts text
  have hmem : ∀ c, c ∈ strip (collapseWs text) → isSpaceB c = true → c = ' ' :=
    fun c hc hs => hfacts.1 c (strip_subset _ c hc) hs
  have hchain := chain'_strip _ _ hfacts.2
  rw [collapseWs_fix _ hmem hchain, strip_strip]

theorem normalize_prefix_fix (text R tail2 : List Char)
    (hsplit : strip (collapseWs text) = R ++ tail2)
    (hstripR : strip R = R) :
    strip (collapseWs R) = R := by
  have hfacts := collapseWs_facts text
  have hmem : ∀ c, c ∈ R → isSpaceB c = true → c = ' ' := by
    intro c hc hs
    apply hfacts.1 c _ hs
    apply strip_subset
    rw [hsplit]
    exact List.mem_append_left tail2 hc
  have hchain : R.Chain' (fun x y => ¬(isSpaceB x = true ∧ isSpaceB y = true)) := by
    have h1 := chain'_strip _ _ hfacts.2
    rw [hsplit] at h1
    exact (List.chain'_append.mp h1).1
  rw [collapseWs_fix R hmem hchain]
  exact hstripR

theorem trim_pipeline (text : List Char) (qs : List (List Char)) (a b : Nat)
    (hgs : goodSentences qs = true) (hjoin : strip (collapseWs text) = joinSp qs)
    (htext : text ≠ []) (hqs : qs ≠ []) :
    trim_link_description text a b =
      dropLoop (selectedPhrases (phraseSpec qs 0) a) b := by
  obtain ⟨q, rest, rfl⟩ := List.exists_cons_of_ne_nil hqs
  have hall := goodSentences_all_last _ hgs
  have hqne : q ≠ [] := (lastSentence_facts q (hall q (List.mem_cons_self q rest))).1
  have hNne : ¬(strip (collapseWs text) = []) := by
    rw [hjoin]
    exact joinSp_ne_nil q rest hqne
  have hphr : phrasesOf (strip (collapseWs text)) = phraseSpec (q :: rest) 0 := by
    rw [hjoin]
    exact phrasesOf_joinSp _ hgs (by simp)
  have hphrne : ¬(phrasesOf (strip (collapseWs text)) = []) := by
    rw [hphr]
    show ¬((0, q) :: phraseSpecTail rest (0 + q.length) = [])
    simp
  have hselne : ¬(selectedPhrases (phrasesOf (strip (collapseWs text))) a = []) := by
    rw [hphr]
    obtain ⟨j, hj1, _, hsel, _⟩ := selected_head a (q :: rest) (by simp)
    rw [hsel]
    obtain ⟨j', rfl⟩ : ∃ m, j = m + 1 := ⟨j - 1, by omega⟩
    rw [List.take_succ_cons]
    simp
  simp only [trim_link_description]
  rw [if_neg htext, if_neg hNne, if_neg hphrne, if_neg hselne, hphr]

theorem trim_run (text : List Char) (qs : List (List Char)) (a b : Nat)
    (hgs : goodSentences qs = true) (hjoin : strip (collapseWs text) = joinSp qs)
    (htext : text ≠ []) (hqs : qs ≠ []) :
    ∃ j, 1 ≤ j ∧ j ≤ qs.length ∧
      trim_link_description text a b = joinSp (qs.take j) ∧
      (∀ st, st ∈ (phraseSpec qs 0).take j → st.1 ≤ a) ∧
      ¬(1 < j ∧ b < (joinSp (qs.take j)).length) := by
  obtain ⟨j₀, hj₀1, hj₀le, hsel, hle₀⟩ := selected_head a qs hqs
  have hselne : selectedPhrases (phraseSpec qs 0) a ≠ [] := by
    rw [hsel]
    obtain ⟨q, rest, rfl⟩ := List.exists_cons_of_ne_nil hqs
    obtain ⟨m, rfl⟩ : ∃ m, j₀ = m + 1 := ⟨j₀ - 1, by omega⟩
    rw [List.take_succ_cons]
    simp
  obtain ⟨j, hj1, hjle, hres, hpost⟩ := dropLoopFuel_run
    (selectedPhrases (phraseSpec qs 0) a).length (selectedPhrases (phraseSpec qs 0) a) b
    hselne rfl
  rw [hsel] at hres hpost hjle
  rw [List.length_take] at hjle
  have hjj₀ : j ≤ j₀ := le_trans hjle (Nat.min_le_left _ _)
  have hjlen : j ≤ qs.length := le_trans hjle (Nat.min_le_right _ _)
  have htake2 : (qs.take j₀).take j = qs.take j := by
    rw [List.take_take, Nat.min_eq_left hjj₀]
  rw [htake2] at hres hpost
  have hKgs : goodSentences (qs.take j) = true := goodSentences_take qs j hgs
  have hKne : qs.take j ≠ [] := by
    obtain ⟨q, rest, rfl⟩ := List.exists_cons_of_ne_nil hqs
    obtain ⟨m, rfl⟩ : ∃ m, j = m + 1 := ⟨j - 1, by omega⟩
    rw [List.take_succ_cons]
    simp
  have hstripK : strip (joinSp (qs.take j)) = joinSp (qs.take j) :=
    strip_joinSp _ hKgs hKne
  rw [hstripK] at hres hpost
  refine ⟨j, hj1, hjlen, ?_, ?_, hpost⟩
  · rw [trim_pipeline text qs a b hgs hjoin htext hqs, hsel]
    show dropLoopFuel (qs.take j₀).length (qs.take j₀) b = _
    exact hres
  · intro st hst
    apply hle₀
    rw [show (phraseSpec qs 0).take j = ((phraseSpec qs 0).take j₀).take j by
      rw [List.take_take, Nat.min_eq_left hjj₀]] at hst
    exact List.mem_of_mem_take hst

theorem trim_run_full (text : List Char) (qs : List (List Char)) (a b : Nat)
    (hgs : goodSentences qs = true) (hjoin : strip (collapseWs text) = joinSp qs)
    (htext : text ≠ []) (hqs : qs ≠ [])
    (hall : ∀ st, st ∈ phraseSpec qs 0 → st.1 ≤ a)
    (hguard : ¬(1 < qs.length ∧ b < (joinSp qs).length)) :
    trim_link_description text a b = joinSp qs := by
  have hsel : selectedPhrases (phraseSpec qs 0) a = qs := by
    unfold selectedPhrases
    rw [List.filter_eq_self.mpr (by intro st hst; simpa using hall st hst)]
    exact phraseSpec_map_snd qs 0
  rw [trim_pipeline text qs a b hgs hjoin htext hqs, hsel]
  obtain ⟨q, rest, rfl⟩ := List.exists_cons_of_ne_nil hqs
  show dropLoopFuel (q :: rest).length (q :: rest) b = _
  rw [show (q :: rest).length = rest.length + 1 from rfl]
  simp only [dropLoopFuel]
  rw [if_neg (by
    rw [strip_joinSp _ hgs (by simp)]
    show ¬(1 < (q :: rest).length ∧ b < (joinSp (q :: rest)).length)
    exact hguard)]
  exact strip_joinSp _ hgs (by simp)

/-- Claim C3 as amended: trim_link_description is idempotent on every text
whose normalized form is a sequence of sentences separated by single spaces,
where each sentence is non-empty, begins with neither whitespace nor a
terminator, ends without whitespace, has no terminator before its final
character, and every sentence except possibly the last ends with one
terminator.  In general the function is not idempotent: rejoining phrases
with single spaces can shift later phrase offsets past the phrase start
limit, so a second application can drop further phrases. -/
theorem trim_idempotent_of_sentence_normal (text : List Char) (qs : List (List Char))
    (a b : Nat) (hgs : goodSentences qs = true)
    (hjoin : strip (collapseWs text) = joinSp qs) :
    trim_link_description (trim_link_description text a b) a b =
      trim_link_description text a b := by
  have h0 : ∀ x y : Nat, trim_link_description [] x y = [] := by
    intro x y
    simp [trim_link_description]
  by_cases htext : text = []
  · subst htext
    rw [h0 a b]
    exact h0 a b
  by_cases hqs : qs = []
  · subst hqs
    have hjoin' : strip (collapseWs text) = [] := by
      rw [hjoin]
      rfl
    have h1 : trim_link_description text a b = [] := by
      simp only [trim_link_description]
      rw [if_neg htext, if_pos hjoin']
      exact hjoin'
    rw [h1, h0 a b]
  obtain ⟨j, hj1, hjle, hres, hsle, hguard⟩ := trim_run text qs a b hgs hjoin htext hqs
  have hKgs : goodSentences (qs.take j) = true := goodSentences_take qs j hgs
  have hKne : qs.take j ≠ [] := by
    obtain ⟨q, rest, rfl⟩ := List.exists_cons_of_ne_nil hqs
    obtain ⟨m, rfl⟩ : ∃ m, j = m + 1 := ⟨j - 1, by omega⟩
    rw [List.take_succ_cons]
    simp
  have hRne : joinSp (qs.take j) ≠ [] := by
    obtain ⟨q', K', hK'⟩ := List.exists_cons_of_ne_nil hKne
    rw [hK']
    apply joinSp_ne_nil
    have hall := goodSentences_all_last (qs.take j) hKgs
    exact (lastSentence_facts q'
      (hall q' (by rw [hK']; exact List.mem_cons_self q' K'))).1
  have hstripK : strip (joinSp (qs.take j)) = joinSp (qs.take j) :=
    strip_joinSp (qs.take j) hKgs hKne
  have hnormR : strip (collapseWs (joinSp (qs.take j))) = joinSp (qs.take j) := by
    by_cases hjful : j < qs.length
    · exact normalize_prefix_fix text (joinSp (qs.take j)) (' ' :: joinSp (qs.drop j))
        (by rw [hjoin]; exact joinSp_take_append qs j hj1 hjful) hstripK
    · have hjful' : j = qs.length := by omega
      have hKfull : qs.take j = qs := by rw [hjful', List.take_length]
      rw [hKfull, ← hjoin]
      exact normalize_N_fix text
  have hKlen : (qs.take j).length = j := by
    rw [List.length_take, Nat.min_eq_left hjle]
  have hallK : ∀ st, st ∈ phraseSpec (qs.take j) 0 → st.1 ≤ a := by
    intro st hst
    rw [phraseSpec_take qs j hj1] at hst
    exact hsle st hst
  have hguardK : ¬(1 < (qs.take j).length ∧ b < (joinSp (qs.take j)).length) := by
    rw [hKlen]
    exact hguard
  have h2 := trim_run_full (joinSp (qs.take j)) (qs.take j) a b hKgs hnormR hRne hKne
    hallK hguardK
  rw [hres]
  exact h2

theorem trim_idempotent_of_sentence_normal_witness :
    trim_link_description (trim_link_description "Aaa. Bbb. Ccc.".toList 10 9) 10 9 =
      trim_link_description "Aaa. Bbb. Ccc.".toList 10 9 :=
  trim_idempotent_of_sentence_normal "Aaa. Bbb. Ccc.".toList
    ["Aaa.".toList, "Bbb.".toList, "Ccc.".toList] 10 9 (by decide) (by decide)

end R2B
